import Mathlib

/-!
Verification development for the hotel concierge chat widget.

The definitions in this file are a shallow embedding of the client-side
conversational core of the repository:

* `Json`, `Json.parse` — a model of the ECMAScript `JSON.parse` used by the
  response resolver (JSON numbers are modelled as exact rationals; a `\u`
  escape that denotes a lone UTF-16 surrogate, which a Lean `String` cannot
  hold, is modelled as U+FFFD).
* `extractAssistantContent`, `parseN8nResponse` — the response resolver of
  `src/src/App.tsx` (lines 968-1066).
* `sendMessageToAI`, `handleSendMessage` — the send flow of `src/src/App.tsx`
  (lines 928-1133), with the network modelled as a function from URL to an
  optional response and the performed effects returned as a trace.
* `setStoredValue` — the `useLocalStorage` hook of `src/src/App.tsx`
  (lines 823-853), with the storage write outcome as an explicit argument.
* `setLocale` — the locale setter of `src/src/i18n/LocaleProvider.tsx`
  (lines 74-83).
* `messages`, `t` — the translation table of `src/src/i18n/messages.ts` and
  the `t` helper of `src/src/App.tsx` (lines 891-894).

JavaScript truthiness, `String.prototype.trim`, `String.prototype.split`,
first-occurrence `String.prototype.replace` and the `/^[\s﻿​]*[\[{]/`
test are modelled character-exactly.
-/

namespace Concierge

/-- A JSON value, as produced by `JSON.parse`.  Object fields are kept in
insertion order with a later duplicate key overwriting the earlier one, which
matches the observable behaviour of JavaScript objects built by `JSON.parse`. -/
inductive Json where
  | null : Json
  | bool (b : Bool) : Json
  | num (q : Rat) : Json
  | str (s : String) : Json
  | arr (elems : List Json) : Json
  | obj (fields : List (String × Json)) : Json

/-- First-match association-list lookup (keys are unique after parsing). -/
def lookupA {α : Type} (k : String) : List (String × α) → Option α
  | [] => none
  | (k', v) :: rest => if k' = k then some v else lookupA k rest

/-- Property access `data[key]` on a JSON value: only objects have the
properties the resolver looks at; on every other value it is `undefined`. -/
def getField (j : Json) (k : String) : Option Json :=
  match j with
  | Json.obj fields => lookupA k fields
  | _ => none

/-- JavaScript truthiness of a JSON value (`NaN` cannot result from
`JSON.parse`, so numbers are falsy exactly when they are zero). -/
def jsTruthy (j : Json) : Bool :=
  match j with
  | Json.null => false
  | Json.bool b => b
  | Json.num q => decide (q ≠ 0)
  | Json.str s => decide (s ≠ "")
  | Json.arr _ => true
  | Json.obj _ => true

/-- Code points of the ECMAScript `WhiteSpace` and `LineTerminator`
productions: the character class of `\s` and the set removed by
`String.prototype.trim`. -/
def jsWsCodes : List Nat :=
  [9, 10, 11, 12, 13, 32, 160, 5760,
   8192, 8193, 8194, 8195, 8196, 8197, 8198, 8199, 8200, 8201, 8202,
   8232, 8233, 8239, 8287, 12288, 65279]

/-- Membership of a code point in the JavaScript whitespace set. -/
def isJsWsCode (n : Nat) : Bool := jsWsCodes.contains n

/-- Membership in the JavaScript whitespace set. -/
def isJsWs (c : Char) : Bool := isJsWsCode c.toNat

/-- JSON (RFC 8259) insignificant whitespace code points. -/
def isJsonWsCode (n : Nat) : Bool := n = 9 || n = 10 || n = 13 || n = 32

/-- JSON (RFC 8259) insignificant whitespace, the set `JSON.parse` skips. -/
def isJsonWs (c : Char) : Bool := isJsonWsCode c.toNat

/-- Code points of the character class `[\s﻿​]` of the resolver's
leading test. -/
def isRegexWsCode (n : Nat) : Bool := isJsWsCode n || n = 8203

/-- The character class `[\s﻿​]` of the resolver's leading test. -/
def isRegexWsClass (c : Char) : Bool := isRegexWsCode c.toNat

/-- Strip JSON whitespace from the front of the character stream. -/
def skipWs (cs : List Char) : List Char := cs.dropWhile isJsonWs

/-- One decimal digit. -/
def digitVal (c : Char) : Nat := c.toNat - 48

/-- Decimal digits to a natural number. -/
def digitsToNat (ds : List Char) : Nat :=
  ds.foldl (fun acc c => acc * 10 + digitVal c) 0

/-- The exact rational denoted by a JSON number literal with sign `neg`,
integer digits `ip`, fraction digits `fd` and exponent `exNeg`/`ed`. -/
def numValue (neg : Bool) (ip fd : List Char) (exNeg : Bool) (ed : List Char) : Rat :=
  let mant : Int := (digitsToNat (ip ++ fd) : Int)
  let mant : Int := if neg then -mant else mant
  let e10 : Int :=
    (if exNeg then -(digitsToNat ed : Int) else (digitsToNat ed : Int)) - (fd.length : Int)
  if 0 ≤ e10 then mkRat (mant * ((10 : Nat) ^ e10.toNat : Nat)) 1
  else mkRat mant ((10 : Nat) ^ (-e10).toNat)

/-- Integer part of a JSON number: `0`, or a nonzero digit followed by
digits; a leading zero followed by a digit is a syntax error. -/
def parseIntPart (cs : List Char) : Option (List Char × List Char) :=
  match cs with
  | [] => none
  | c :: rest =>
    if c = '0' then
      match rest with
      | r :: _ => if r.isDigit then none else some ([c], rest)
      | [] => some ([c], rest)
    else if c.isDigit then
      some (c :: rest.takeWhile Char.isDigit, rest.dropWhile Char.isDigit)
    else none

/-- Optional fraction part `.digits` of a JSON number. -/
def parseFracPart (cs : List Char) : Option (List Char × List Char) :=
  match cs with
  | c :: rest =>
    if c = '.' then
      let ds := rest.takeWhile Char.isDigit
      if ds = [] then none else some (ds, rest.dropWhile Char.isDigit)
    else some ([], cs)
  | [] => some ([], cs)

/-- Optional exponent part `[eE][+-]?digits` of a JSON number. -/
def parseExpPart (cs : List Char) : Option ((Bool × List Char) × List Char) :=
  match cs with
  | c :: rest =>
    if c = 'e' ∨ c = 'E' then
      let (sign, rest') :=
        match rest with
        | s :: r2 => if s = '-' then (true, r2) else if s = '+' then (false, r2) else (false, rest)
        | [] => (false, rest)
      let ds := rest'.takeWhile Char.isDigit
      if ds = [] then none else some ((sign, ds), rest'.dropWhile Char.isDigit)
    else some ((false, []), cs)
  | [] => some ((false, []), cs)

/-- A JSON number literal, greedy over its digits, as `JSON.parse` reads it. -/
def parseNum (cs : List Char) : Option (Json × List Char) :=
  let (neg, cs1) :=
    match cs with
    | c :: r => if c = '-' then (true, r) else (false, cs)
    | [] => (false, cs)
  match parseIntPart cs1 with
  | none => none
  | some (ip, cs2) =>
    match parseFracPart cs2 with
    | none => none
    | some (fd, cs3) =>
      match parseExpPart cs3 with
      | none => none
      | some ((exNeg, ed), cs4) => some (Json.num (numValue neg ip fd exNeg ed), cs4)

/-- Value of a hexadecimal digit, if it is one. -/
def hexVal (c : Char) : Option Nat :=
  if '0' ≤ c ∧ c ≤ '9' then some (c.toNat - 48)
  else if 'a' ≤ c ∧ c ≤ 'f' then some (c.toNat - 87)
  else if 'A' ≤ c ∧ c ≤ 'F' then some (c.toNat - 55)
  else none

/-- Four hexadecimal digits. -/
def hex4 (a b c d : Char) : Option Nat :=
  match hexVal a, hexVal b, hexVal c, hexVal d with
  | some x, some y, some z, some w => some (((x * 16 + y) * 16 + z) * 16 + w)
  | _, _, _, _ => none

/-- After a high-surrogate escape `\u<n>`, look for an immediately following
low-surrogate escape: when present, the combined scalar and the stream after
it; otherwise U+FFFD (the model of a lone surrogate, which a Lean `String`
cannot hold) and the unconsumed stream. -/
def lowEscapeLookahead (n : Nat) (rest : List Char) : Char × List Char :=
  match rest with
  | e1 :: e2 :: a2 :: b2 :: c2 :: d2 :: rest3 =>
    if e1 = '\\' ∧ e2 = 'u' then
      match hex4 a2 b2 c2 d2 with
      | some m =>
        if 0xDC00 ≤ m ∧ m ≤ 0xDFFF then
          (Char.ofNat (0x10000 + (n - 0xD800) * 0x400 + (m - 0xDC00)), rest3)
        else (Char.ofNat 0xFFFD, rest)
      | none => (Char.ofNat 0xFFFD, rest)
    else (Char.ofNat 0xFFFD, rest)
  | _ => (Char.ofNat 0xFFFD, rest)

/-- One escape sequence after a backslash inside a JSON string, returning the
denoted character and the rest of the stream.  A surrogate pair of `\u`
escapes is combined; a lone surrogate is modelled as U+FFFD. -/
def parseEscape (cs : List Char) : Option (Char × List Char) :=
  match cs with
  | [] => none
  | c :: rest =>
    if c = 'u' then
      match rest with
      | a :: b :: c2 :: d2 :: rest2 =>
        match hex4 a b c2 d2 with
        | none => none
        | some n =>
          if 0xD800 ≤ n ∧ n ≤ 0xDBFF then some (lowEscapeLookahead n rest2)
          else if 0xDC00 ≤ n ∧ n ≤ 0xDFFF then some (Char.ofNat 0xFFFD, rest2)
          else some (Char.ofNat n, rest2)
      | _ => none
    else if c = '"' then some ('"', rest)
    else if c = '\\' then some ('\\', rest)
    else if c = '/' then some ('/', rest)
    else if c = 'b' then some (Char.ofNat 8, rest)
    else if c = 'f' then some (Char.ofNat 12, rest)
    else if c = 'n' then some ('\n', rest)
    else if c = 'r' then some ('\r', rest)
    else if c = 't' then some ('\t', rest)
    else none

/-- Body of a JSON string after the opening quote: characters up to the
closing quote, with escapes decoded and unescaped control characters
rejected, as `JSON.parse` does. -/
def parseStringBody : Nat → List Char → Option (List Char × List Char)
  | 0, _ => none
  | fuel + 1, cs =>
    match cs with
    | [] => none
    | c :: rest =>
      if c = '"' then some ([], rest)
      else if c = '\\' then
        match parseEscape rest with
        | none => none
        | some (ch, rest') =>
          match parseStringBody fuel rest' with
          | none => none
          | some (s, r) => some (ch :: s, r)
      else if c.toNat < 32 then none
      else
        match parseStringBody fuel rest with
        | none => none
        | some (s, r) => some (c :: s, r)

/-- Does `c` begin a JSON value? -/
def isValueStart (c : Char) : Bool :=
  c = '{' || c = '[' || c = '"' || c = 't' || c = 'f' || c = 'n' || c = '-' || c.isDigit

/-- Insert a parsed object member, overwriting an earlier duplicate key. -/
def addField (acc : List (String × Json)) (k : String) (v : Json) : List (String × Json) :=
  if (lookupA k acc).isSome then
    acc.map (fun kv => if kv.1 = k then (kv.1, v) else kv)
  else acc ++ [(k, v)]

mutual

/-- One JSON value at the head of the stream (no leading whitespace). -/
def parseVal : Nat → List Char → Option (Json × List Char)
  | 0, _ => none
  | fuel + 1, cs =>
    match cs with
    | [] => none
    | c :: rest =>
      if c = '{' then parseObj fuel rest
      else if c = '[' then parseArr fuel rest
      else if c = '"' then
        match parseStringBody fuel rest with
        | none => none
        | some (s, r) => some (Json.str (String.mk s), r)
      else if c = 't' then
        if ['r', 'u', 'e'].isPrefixOf rest then some (Json.bool true, rest.drop 3)
        else none
      else if c = 'f' then
        if ['a', 'l', 's', 'e'].isPrefixOf rest then some (Json.bool false, rest.drop 4)
        else none
      else if c = 'n' then
        if ['u', 'l', 'l'].isPrefixOf rest then some (Json.null, rest.drop 3)
        else none
      else if c = '-' ∨ c.isDigit then parseNum cs
      else none

/-- Object tail after the opening brace. -/
def parseObj : Nat → List Char → Option (Json × List Char)
  | 0, _ => none
  | fuel + 1, cs =>
    match skipWs cs with
    | '}' :: r => some (Json.obj [], r)
    | cs1 => parseMembers fuel cs1 []

/-- One or more `"key": value` members, ending at the closing brace; a later
duplicate key overwrites the earlier one, as in a JavaScript object. -/
def parseMembers : Nat → List Char → List (String × Json) → Option (Json × List Char)
  | 0, _, _ => none
  | fuel + 1, cs, acc =>
    match cs with
    | '"' :: rest =>
      match parseStringBody fuel rest with
      | none => none
      | some (k, r1) =>
        match skipWs r1 with
        | ':' :: r3 =>
          match parseVal fuel (skipWs r3) with
          | none => none
          | some (v, r4) =>
            let acc' := addField acc (String.mk k) v
            match skipWs r4 with
            | ',' :: r6 => parseMembers fuel (skipWs r6) acc'
            | '}' :: r6 => some (Json.obj acc', r6)
            | _ => none
        | _ => none
    | _ => none

/-- Array tail after the opening bracket. -/
def parseArr : Nat → List Char → Option (Json × List Char)
  | 0, _ => none
  | fuel + 1, cs =>
    match skipWs cs with
    | ']' :: r => some (Json.arr [], r)
    | cs1 => parseElems fuel cs1 []

/-- One or more array elements, ending at the closing bracket. -/
def parseElems : Nat → List Char → List Json → Option (Json × List Char)
  | 0, _, _ => none
  | fuel + 1, cs, acc =>
    match parseVal fuel cs with
    | none => none
    | some (v, r1) =>
      match skipWs r1 with
      | ',' :: r3 => parseElems fuel (skipWs r3) (acc ++ [v])
      | ']' :: r3 => some (Json.arr (acc ++ [v]), r3)
      | _ => none

end

/-- The model of `JSON.parse`: optional whitespace, one value, optional
whitespace, end of input; anything else throws, modelled as `none`.  The fuel
`2 * length + 2` exceeds the recursion depth any input of this length can
drive the mutual parser to. -/
def Json.parse (s : String) : Option Json :=
  match parseVal (2 * s.data.length + 2) (skipWs s.data) with
  | some (v, rem) => if skipWs rem = [] then some v else none
  | none => none

/-- Characters that a greedy number parse could absorb at its end: padding
that starts with anything else cannot change an already-complete parse. -/
def isNumCont (c : Char) : Bool := c.isDigit || c = '.' || c = 'e' || c = 'E'

/-- Padding whose first character cannot extend a completed number parse. -/
def safePad (ext : List Char) : Prop :=
  ∀ c, ext.head? = some c → isNumCont c = false

/-- A stream on which some string-body parse succeeds; used to rule out a
stream that ends inside a half-read escape. -/
def strOk (r : List Char) : Prop :=
  ∃ f s r2, parseStringBody f r = some (s, r2)

/-- `String.prototype.trim` on a character list: JavaScript whitespace
removed from both ends. -/
def jsTrimList (cs : List Char) : List Char :=
  ((cs.dropWhile isJsWs).reverse.dropWhile isJsWs).reverse

/-- `String.prototype.trim`. -/
def jsTrim (s : String) : String := String.mk (jsTrimList s.data)

/-- `split('\n')` on a character list: every line feed is a separator, and
the empty text yields one empty piece, as in JavaScript. -/
def splitOnNl : List Char → List (List Char)
  | [] => [[]]
  | c :: cs =>
    if c = '\n' then [] :: splitOnNl cs
    else
      match splitOnNl cs with
      | l :: ls => (c :: l) :: ls
      | [] => [[c]]

/-- `String.prototype.split` with separator `'\n'`. -/
def splitLinesJs (s : String) : List String := (splitOnNl s.data).map String.mk

/-- Rejoin the pieces of `splitOnNl` with line feeds, its inverse. -/
def joinNl : List (List Char) → List Char
  | [] => []
  | [l] => l
  | l :: l2 :: ls => l ++ ('\n') :: joinNl (l2 :: ls)

/-- The resolver's leading test (App.tsx line 1026): after any run of
characters of the class `[\s﻿​]`, the text starts with `[` or `{`. -/
def leadingJsonCharTest (s : String) : Bool :=
  match s.data.dropWhile isRegexWsClass with
  | c :: _ => c = '[' || c = '{'
  | [] => false

/-- `typeof data[k] === 'string'` as an optional string. -/
def getStrField (j : Json) (k : String) : Option String :=
  match getField j k with
  | some (Json.str s) => some s
  | _ => none

/-- The candidate content keys, in the priority order of the source
(App.tsx lines 982-986 and 1011). -/
def candidateKeys : List String := ["output", "response", "text", "message", "content"]

/-- The five `typeof data.<key> === 'string'` checks of App.tsx lines
982-986: the first candidate key holding a string value directly, in
priority order. -/
def firstDirect (data : Json) : Option String :=
  candidateKeys.findSome? (fun k => getStrField data k)

/-- The array fast path of App.tsx lines 1003-1005: the first truthy array
element whose `output` property is a string. -/
def arrayOutputFastPath (xs : List Json) : Option String :=
  xs.findSome? (fun item => if jsTruthy item then getStrField item ("output") else none)

mutual

/-- Size of a JSON value, the fuel bound for the recursive extraction. -/
def sizeJ : Json → Nat
  | Json.null => 1
  | Json.bool _ => 1
  | Json.num _ => 1
  | Json.str _ => 1
  | Json.arr xs => sizeJList xs + 1
  | Json.obj fs => sizeJFields fs + 1

/-- Size of a list of JSON values. -/
def sizeJList : List Json → Nat
  | [] => 0
  | x :: xs => sizeJ x + sizeJList xs + 1

/-- Size of a list of JSON object members. -/
def sizeJFields : List (String × Json) → Nat
  | [] => 0
  | kv :: fs => sizeJ kv.2 + sizeJFields fs + 1

end

/-- `extractAssistantContent` of App.tsx lines 978-1023, with explicit fuel
(every recursive call is on a value of strictly smaller `sizeJ`, so fuel
`sizeJ data + 1` never runs out).  The stages, in source order: falsy data
yields the empty string; a string yields itself; a candidate key holding a
string directly wins; the `items` array is searched with its elements'
`json` envelopes unwrapped when truthy; a truthy `json` then `data` envelope
is unwrapped; an array is searched by the `output` fast path and then
element-wise; finally each candidate key's value is searched recursively. -/
def extractAC : Nat → Json → String
  | 0, _ => ""
  | fuel + 1, data =>
    if jsTruthy data = false then ""
    else
      match data with
      | Json.str s => s
      | _ =>
        match firstDirect data with
        | some s => s
        | none =>
          let viaItems : Option String :=
            match getField data ("items") with
            | some (Json.arr items) =>
              items.findSome? (fun item =>
                let arg :=
                  match getField item ("json") with
                  | some v => if jsTruthy v then v else item
                  | none => item
                let s := extractAC fuel arg
                if s = "" then none else some s)
            | _ => none
          match viaItems with
          | some s => s
          | none =>
            let viaJson : Option String :=
              match getField data ("json") with
              | some v =>
                if jsTruthy v then
                  let s := extractAC fuel v
                  if s = "" then none else some s
                else none
              | none => none
            match viaJson with
            | some s => s
            | none =>
              let viaData : Option String :=
                match getField data ("data") with
                | some v =>
                  if jsTruthy v then
                    let s := extractAC fuel v
                    if s = "" then none else some s
                  else none
                | none => none
              match viaData with
              | some s => s
              | none =>
                let viaArray : Option String :=
                  match data with
                  | Json.arr xs =>
                    match arrayOutputFastPath xs with
                    | some s => some s
                    | none =>
                      xs.findSome? (fun item =>
                        let s := extractAC fuel item
                        if s = "" then none else some s)
                  | _ => none
                match viaArray with
                | some s => s
                | none =>
                  match candidateKeys.findSome? (fun k =>
                      match getField data k with
                      | some v =>
                        let s := extractAC fuel v
                        if s = "" then none else some s
                      | none => none) with
                  | some s => s
                  | none => ""

/-- `extractAssistantContent` at its natural fuel. -/
def extractAssistantContent (data : Json) : String := extractAC (sizeJ data + 1) data

/-- JavaScript `a || b` on strings (the empty string is falsy). -/
def jsOrStr (a b : String) : String := if a = "" then b else a

/-- One line of the NDJSON pass (App.tsx lines 1039-1053): trim the line,
skip it when blank, parse it; a `{type: "item", content: <string>}` line
appends its `content`; any other parsed line appends its recursive
extraction when non-empty; an unparseable line becomes the accumulator only
when nothing has been accumulated yet. -/
def ndjsonStep (acc : String) (rawLine : String) : String :=
  let line := jsTrim rawLine
  if line = "" then acc
  else
    match Json.parse line with
    | some jsonLine =>
      match getStrField jsonLine ("type"), getStrField jsonLine ("content") with
      | some ("item"), some c => acc ++ c
      | _, _ =>
        let s := extractAssistantContent jsonLine
        if s = "" then acc else acc ++ s
    | none => if acc = "" then line else acc

/-- Stage 1 of `parseN8nResponse` (App.tsx lines 1026-1033): when the body
is non-empty, passes the leading test and parses as one JSON document, its
recursive extraction; otherwise the accumulator stays empty. -/
def resolverWholeJson (rawText : String) : String :=
  if rawText ≠ "" ∧ leadingJsonCharTest rawText = true then
    match Json.parse rawText with
    | some parsed => extractAssistantContent parsed
    | none => ""
  else ""

/-- Stages 1-2 of `parseN8nResponse` (App.tsx lines 1026-1055): when stage 1
extracted nothing and the trimmed body has more than one line, the NDJSON
pass over the lines. -/
def resolverAfterNdjson (rawText : String) : String :=
  let afterWhole := resolverWholeJson rawText
  if afterWhole = "" ∧ rawText ≠ "" then
    let lines := splitLinesJs (jsTrim rawText)
    if lines.length > 1 then lines.foldl ndjsonStep ("") else afterWhole
  else afterWhole

/-- `parseN8nResponse` of App.tsx lines 968-1066, as a function of the raw
response body text: the staged extraction, then, when still nothing was
extracted and the body is non-empty, the raw body itself.  Every parse
failure inside is caught, so the function is total: no input throws. -/
def parseN8nResponse (rawText : String) : String :=
  if resolverAfterNdjson rawText = "" ∧ rawText ≠ "" then rawText
  else resolverAfterNdjson rawText

/-- A chat message (App.tsx lines 815-820); the role is the string
`"user"` or `"assistant"`. -/
structure Message where
  id : String
  content : String
  role : String
  timestamp : Int
deriving DecidableEq

/-- One entry of the outbound `conversationHistory` (App.tsx lines 944-948). -/
structure HistoryEntry where
  role : String
  content : String
  timestamp : Int
deriving DecidableEq

/-- The outbound webhook payload (App.tsx lines 938-949). -/
structure Payload where
  message : String
  role : String
  timestamp : Int
  sessionId : String
  locale : String
  conversationHistory : List HistoryEntry
deriving DecidableEq

/-- The projection applied to each history message (App.tsx lines 944-948). -/
def projectHistory (m : Message) : HistoryEntry :=
  { role := m.role, content := m.content, timestamp := m.timestamp }

/-- `currentMessages.slice(-10)`: the trailing at-most-ten messages, order
preserved (App.tsx line 935). -/
def lastTen (msgs : List Message) : List Message :=
  msgs.drop (msgs.length - 10)

/-- The payload construction of App.tsx lines 934-949. -/
def buildPayload (messageContent : String) (sendTime : Int) (locale : String)
    (currentMessages : List Message) : Payload :=
  { message := jsTrim messageContent
    role := "user"
    timestamp := sendTime
    sessionId := "hotel-chat-session"
    locale := locale
    conversationHistory := (lastTen currentMessages).map projectHistory }

/-- The translation table of `src/src/i18n/messages.ts`, restricted to the
error messages the send flow reads (the presentational keys play no part in
any claim). -/
def messages : List (String × List (String × String)) :=
  [("es-UY",
    [("error.processing", "Disculpe, he encontrado un error al procesar su consulta. Por favor, inténtelo nuevamente."),
     ("error.unavailable", "Lo siento, no he podido procesar su consulta en este momento."),
     ("error.languageNotSupported", "Idioma no disponible, usamos Español")]),
   ("en",
    [("error.processing", "Sorry, I encountered an error processing your query. Please try again."),
     ("error.unavailable", "Sorry, I couldn't process your query at this time."),
     ("error.languageNotSupported", "Language not available, using English")]),
   ("fr",
    [("error.processing", "Désolé, j'ai rencontré une erreur lors du traitement de votre demande. Veuillez réessayer."),
     ("error.unavailable", "Désolé, je n'ai pas pu traiter votre demande pour le moment."),
     ("error.languageNotSupported", "Langue non disponible, utilisation du français")]),
   ("pt-BR",
    [("error.processing", "Desculpe, encontrei um erro ao processar sua consulta. Tente novamente."),
     ("error.unavailable", "Desculpe, não consegui processar sua consulta no momento."),
     ("error.languageNotSupported", "Idioma não disponível, usando Português")]),
   ("de",
    [("error.processing", "Entschuldigung, beim Verarbeiten Ihrer Anfrage ist ein Fehler aufgetreten. Bitte versuchen Sie es erneut."),
     ("error.unavailable", "Entschuldigung, ich konnte Ihre Anfrage momentan nicht verarbeiten."),
     ("error.languageNotSupported", "Sprache nicht verfügbar, verwende Deutsch")])]

/-- The `t` helper of App.tsx lines 891-894:
`translations[locale]?.[key] || translations['es-UY'][key] || key`. -/
def t (locale key : String) : String :=
  jsOrStr (((lookupA locale messages).bind (lookupA key)).getD (""))
    (jsOrStr (((lookupA ("es-UY") messages).bind (lookupA key)).getD ("")) key)

/-- A webhook response as the client observes it: the HTTP `ok` flag and
the body text. -/
structure NetResponse where
  ok : Bool
  body : String
deriving DecidableEq

/-- The effects of one send: the POSTs issued in order (URL and payload)
and the message list passed to `setChatMessages`. -/
structure SendResult where
  requests : List (String × Payload)
  finalMessages : List Message

/-- The default webhook endpoint of App.tsx line 952. -/
def defaultWebhookUrl : String :=
  "https://n8n-n8n.ua4qkv.easypanel.host/webhook/8cc93673-7b91-4992-aca5-834c8e66890a"

/-- First-occurrence string replacement, the semantics of JavaScript
`String.prototype.replace` with a string pattern. -/
def replaceFirstAux (pat repl : List Char) : List Char → List Char
  | [] => []
  | c :: rest =>
    if pat.isPrefixOf (c :: rest) then repl ++ (c :: rest).drop pat.length
    else c :: replaceFirstAux pat repl rest

/-- `String.prototype.replace` with string pattern and replacement. -/
def jsReplaceFirst (s pat repl : String) : String :=
  String.mk (replaceFirstAux pat.data repl.data s.data)

/-- The retry endpoint of App.tsx line 1074. -/
def testWebhookUrlOf (primaryUrl : String) : String :=
  jsReplaceFirst primaryUrl ("/webhook/") ("/webhook-test/")

/-- The assistant message appended on the success path
(App.tsx lines 1093-1098). -/
def assistantMessageFor (content : String) (replyTime : Int) : Message :=
  { id := toString (replyTime + 1), content := content,
    role := "assistant", timestamp := replyTime + 1 }

/-- `sendMessageToAI` of App.tsx lines 928-1112.  The network is a function
from URL to an optional response (`none` models a rejected fetch); the
result is `none` when the guard returns early, and otherwise the trace of
POSTs together with the final message list: a thrown primary fetch or a
non-ok primary status appends the localized processing-error message; an
ok primary response is resolved, an empty resolution triggers one retry
against the test URL, and the appended assistant message carries the
resolved content or, when it is empty, the localized unavailability
message. -/
def sendMessageToAI (net : String → Option NetResponse) (primaryUrl : String)
    (locale : String) (messageContent : String) (currentMessages : List Message)
    (sendTime replyTime : Int) (isLoading : Bool) : Option SendResult :=
  if jsTrim messageContent = "" ∨ isLoading = true then none
  else some (
    let payload := buildPayload messageContent sendTime locale currentMessages
    match net primaryUrl with
    | none =>
      { requests := [(primaryUrl, payload)]
        finalMessages :=
          currentMessages ++ [assistantMessageFor (t locale ("error.processing")) replyTime] }
    | some r =>
      if r.ok = false then
        { requests := [(primaryUrl, payload)]
          finalMessages :=
            currentMessages ++ [assistantMessageFor (t locale ("error.processing")) replyTime] }
      else
        let c1 := parseN8nResponse r.body
        if c1 = "" then
          let testUrl := testWebhookUrlOf primaryUrl
          let c2 : String :=
            match net testUrl with
            | none => c1
            | some rt => if rt.ok = true then parseN8nResponse rt.body else c1
          { requests := [(primaryUrl, payload), (testUrl, payload)]
            finalMessages :=
              currentMessages ++
                [assistantMessageFor (jsOrStr c2 (t locale ("error.unavailable"))) replyTime] }
        else
          { requests := [(primaryUrl, payload)]
            finalMessages :=
              currentMessages ++
                [assistantMessageFor (jsOrStr c1 (t locale ("error.unavailable"))) replyTime] })

/-- `handleSendMessage` of App.tsx lines 1114-1133: guard on blank input or
a send in flight, append the user message optimistically, and hand the
updated list to `sendMessageToAI`. -/
def handleSendMessage (net : String → Option NetResponse) (primaryUrl : String)
    (locale : String) (inputValue : String) (chatMessages : List Message)
    (sendTime replyTime : Int) (isLoading : Bool) : Option SendResult :=
  if jsTrim inputValue = "" ∨ isLoading = true then none
  else
    let userMessage : Message :=
      { id := toString sendTime, content := jsTrim inputValue,
        role := "user", timestamp := sendTime }
    let updatedMessages := chatMessages ++ [userMessage]
    sendMessageToAI net primaryUrl locale (jsTrim inputValue) updatedMessages
      sendTime replyTime isLoading

/-- The state owned by the `useLocalStorage` hook (App.tsx lines 823-853):
the storage key, the in-memory value, the persisted serialized value, and
the log of caught errors. -/
structure LocalStore (T : Type) where
  key : String
  value : T
  persisted : Option String
  logs : List String

/-- `setStoredValue` of App.tsx lines 833-841.  The new value is either a
plain value or an updater function of the captured state; `setValue` runs
first, then the storage write, whose outcome is the `writeOk` argument: a
throwing write is caught and logged after the in-memory update has already
happened. -/
def setStoredValue {T : Type} (serialize : T → String) (st : LocalStore T)
    (newValue : T ⊕ (T → T)) (writeOk : Bool) : LocalStore T :=
  let valueToStore : T :=
    match newValue with
    | Sum.inl v => v
    | Sum.inr f => f st.value
  if writeOk then
    { key := st.key, value := valueToStore,
      persisted := some (serialize valueToStore), logs := st.logs }
  else
    { key := st.key, value := valueToStore, persisted := st.persisted,
      logs := st.logs ++ [("Error setting localStorage key " ++ st.key)] }

/-- The supported locale codes of `SUPPORTED_LOCALES` in
`usePreferredLocale`. -/
def SUPPORTED_LOCALE_CODES : List String := ["es-UY", "en", "fr", "pt-BR", "de"]

/-- The locale state owned by `LocaleProvider`: the in-memory locale, the
persisted cookie value, the persisted local-storage value, and the log of
emitted warnings. -/
structure LocaleState where
  locale : String
  cookie : Option String
  storage : Option String
  warnings : List String
deriving DecidableEq

/-- `setLocale` of `src/src/i18n/LocaleProvider.tsx` lines 74-83: an
unsupported code only logs a warning; a supported one persists to the
cookie and to local storage before updating the in-memory locale. -/
def setLocale (st : LocaleState) (newLocale : String) : LocaleState :=
  if SUPPORTED_LOCALE_CODES.contains newLocale = false then
    { locale := st.locale, cookie := st.cookie, storage := st.storage,
      warnings := st.warnings ++ [("Unsupported locale: " ++ newLocale)] }
  else
    { locale := newLocale, cookie := some newLocale, storage := some newLocale,
      warnings := st.warnings }

/-- The extraction strategy exactly as the claim C3 wording states it, for
comparison with the source's `extractAssistantContent`: a depth-first
search that returns the first string found, exploring the candidate keys
`output`, `response`, `text`, `message`, `content` in that priority order
at each level (a key's whole subtree before the next key). -/
def specClaimedDfs : Nat → Json → Option String
  | 0, _ => none
  | fuel + 1, j =>
    match j with
    | Json.str s => some s
    | _ => candidateKeys.findSome? (fun k => (getField j k).bind (specClaimedDfs fuel))

/-- The claimed depth-first search at its natural fuel. -/
def specClaimedDfsExtract (j : Json) : Option String := specClaimedDfs (sizeJ j + 1) j

/-- Is a string value attached to a recognized candidate key anywhere in
the document?  This is the hypothesis of claim C10, stated as the claim
words it. -/
def hasCandidateString : Nat → Json → Bool
  | 0, _ => false
  | fuel + 1, j =>
    match j with
    | Json.obj fs =>
      fs.any (fun kv =>
        (candidateKeys.contains kv.1 &&
          (match kv.2 with | Json.str _ => true | _ => false))
        || hasCandidateString fuel kv.2)
    | Json.arr xs => xs.any (fun x => hasCandidateString fuel x)
    | _ => false

/-- `hasCandidateString` at its natural fuel. -/
def hasCandidateStringIn (j : Json) : Bool := hasCandidateString (sizeJ j + 1) j

/-- What one line contributes under claim C5's hypothesis: a blank line
contributes the empty string, and a line parsing as an object with
`type = "item"` and a string `content` contributes that content; any other
line is outside the claim. -/
def lineItemContent (l : String) : Option String :=
  let tl := jsTrim l
  if tl = "" then some ""
  else
    match Json.parse tl with
    | some j =>
      match getStrField j ("type"), getStrField j ("content") with
      | some ("item"), some c => some c
      | _, _ => none
    | none => none

/-- The concatenation, in line order, of the `content` fields of claim C5. -/
def joinLineContents (lines : List String) : String :=
  String.join (lines.map (fun l => (lineItemContent l).getD ("")))

/-! ### Shared lemmas -/

theorem splitOnNl_no_nl (cs : List Char) (h : ('\n') ∉ cs) : splitOnNl cs = [cs] := by
  induction cs with
  | nil => rfl
  | cons c rest ih =>
    have hc : ¬ c = '\n' := fun he => h (by simp [he])
    have hrest : ('\n') ∉ rest := fun hm => h (List.mem_cons_of_mem c hm)
    simp [splitOnNl, hc, ih hrest]

theorem splitLines_single (s : String) (hnl : ('\n') ∉ s.data) :
    (splitLinesJs s).length = 1 := by
  unfold splitLinesJs
  rw [splitOnNl_no_nl _ hnl]
  rfl

theorem parse_ne_empty (raw : String) (j : Json) (h : Json.parse raw = some j) :
    raw ≠ "" := by
  intro h0
  rw [h0] at h
  have h1 : Json.parse ("") = none := rfl
  rw [h1] at h
  exact Option.noConfusion h

theorem resolver_of_whole_parse (raw : String) (j : Json)
    (hlead : leadingJsonCharTest raw = true)
    (hparse : Json.parse raw = some j)
    (hne : extractAssistantContent j ≠ "") :
    parseN8nResponse raw = extractAssistantContent j := by
  have hraw : raw ≠ "" := by
    intro h0
    rw [h0] at hlead
    exact absurd hlead (by decide)
  have h1 : resolverAfterNdjson raw = extractAssistantContent j := by
    unfold resolverAfterNdjson resolverWholeJson
    simp [hparse, hlead, hraw, hne]
  unfold parseN8nResponse
  simp [h1, hne]

/-! ### Claim C1 -/

/-- Claim C1, counterexample: on a failed storage write the in-memory value
of the Conversation Store is NOT left at its pre-write value — `setValue`
runs before `localStorage.setItem`, so the in-memory list already holds the
appended message when the write throws. -/
theorem c1_counterexample :
    (setStoredValue (fun _ => ("[]"))
        ⟨("chat-messages"), ([] : List Message), some ("[]"), []⟩
        (Sum.inl [⟨("1"), ("hola"), ("user"), 1⟩]) false).value
      ≠ ([] : List Message) := by decide

/-- Claim C1, amended: for every value of the Conversation Store and every
mutation through `setStoredValue`, if the write to persisted storage fails,
the failure is caught and logged and the persisted value is left unchanged,
but the in-memory value is updated to the new value (the in-memory update
precedes the storage write). -/
theorem c1_amended {T : Type} (serialize : T → String) (st : LocalStore T)
    (newValue : T ⊕ (T → T)) :
    (setStoredValue serialize st newValue false).value
        = (match newValue with | Sum.inl v => v | Sum.inr f => f st.value)
    ∧ (setStoredValue serialize st newValue false).persisted = st.persisted
    ∧ (setStoredValue serialize st newValue false).logs
        = st.logs ++ [("Error setting localStorage key " ++ st.key)] :=
  ⟨rfl, rfl, rfl⟩

/-! ### Claim C2 -/

/-- Claim C2: the Response Resolver is a total function of the raw body (no
input throws — every catch in the source is modelled and the result is
always a string); the empty body resolves to the empty string, and it is
the only body that does; and on the empty resolution the caller substitutes
the localized unavailability message. -/
theorem c2_resolver_total :
    (∀ raw : String, raw ≠ "" → parseN8nResponse raw ≠ "")
    ∧ parseN8nResponse ("") = ""
    ∧ ∀ locale : String,
        jsOrStr (parseN8nResponse ("")) (t locale ("error.unavailable"))
          = t locale ("error.unavailable") := by
  refine ⟨?_, by decide, ?_⟩
  · intro raw h
    unfold parseN8nResponse
    by_cases h2 : resolverAfterNdjson raw = ""
    · simp [h2, h]
    · simp [h2]
  · intro locale
    have h0 : parseN8nResponse ("") = "" := by decide
    rw [h0]
    rfl

/-- Claim C2, witness: a non-empty body resolves to a non-empty string. -/
theorem c2_witness : parseN8nResponse ("x") ≠ "" :=
  c2_resolver_total.1 ("x") (by decide)

/-! ### Claim C3 -/

/-- Claim C3, counterexample: the resolver does not perform the claimed
depth-first search over the candidate keys.  On
`{"output": {"response": "A"}, "response": "B"}` the claimed search finds
`"A"` inside the `output` subtree first, while the code returns the
top-level `"B"` (a direct string at the current level wins before any
descent); and on `{"output":""}` the claimed search finds the empty string
at `output`, while the resolver falls back to the raw body text. -/
theorem c3_counterexample :
    ((Json.parse ("\x7b\"output\": \x7b\"response\": \"A\"\x7d, \"response\": \"B\"\x7d")).bind
        specClaimedDfsExtract = some ("A"))
    ∧ parseN8nResponse ("\x7b\"output\": \x7b\"response\": \"A\"\x7d, \"response\": \"B\"\x7d")
        = ("B")
    ∧ (("A") : String) ≠ ("B")
    ∧ ((Json.parse ("\x7b\"output\":\"\"\x7d")).bind specClaimedDfsExtract = some (""))
    ∧ parseN8nResponse ("\x7b\"output\":\"\"\x7d") = ("\x7b\"output\":\"\"\x7d")
    ∧ (("\x7b\"output\":\"\"\x7d") : String) ≠ "" := by
  refine ⟨rfl, by decide, by decide, rfl, by decide, by decide⟩

/-- Claim C3, amended: for every response body that, after stripping the
whitespace class of the leading test, begins with `{` or `[` and parses as
one JSON document, the resolver returns the string produced by the source's
recursive extraction — which checks, at each level, the candidate keys
`output`, `response`, `text`, `message`, `content` for directly attached
strings in that priority order before unwrapping envelopes, iterating
arrays, and descending recursively — provided that extraction is non-empty;
in particular `{"output": "hi"}` yields `"hi"`. -/
theorem c3_amended (raw : String) (j : Json)
    (hlead : leadingJsonCharTest raw = true)
    (hparse : Json.parse raw = some j)
    (hne : extractAssistantContent j ≠ "") :
    parseN8nResponse raw = extractAssistantContent j :=
  resolver_of_whole_parse raw j hlead hparse hne

/-- Claim C3, witness: `{"output": "hi"}` resolves to `"hi"`. -/
theorem c3_witness : parseN8nResponse ("\x7b\"output\": \"hi\"\x7d") = ("hi") :=
  (c3_amended ("\x7b\"output\": \"hi\"\x7d") (Json.obj [(("output"), Json.str ("hi"))])
    (by decide) rfl (by decide)).trans rfl

/-! ### Claim C6 -/

/-- Claim C6: a single-line body that is not parseable as JSON and does not
begin with `{` or `[` resolves to the raw body text itself. -/
theorem c6_single_line_fallback (raw : String)
    (hparse : Json.parse raw = none)
    (hlead : leadingJsonCharTest raw = false)
    (hnl : ('\n') ∉ (jsTrim raw).data) :
    parseN8nResponse raw = raw := by
  by_cases hraw : raw = ""
  · subst hraw
    rfl
  · have h1 : resolverAfterNdjson raw = "" := by
      unfold resolverAfterNdjson resolverWholeJson
      simp [hlead, hraw, splitLines_single _ hnl]
    unfold parseN8nResponse
    simp [h1, hraw]

/-- Claim C6, witness: the body `not json at all` resolves to itself. -/
theorem c6_witness : parseN8nResponse ("not json at all") = ("not json at all") :=
  c6_single_line_fallback ("not json at all") rfl (by decide) (by decide)

/-! ### Claim C10 -/

/-- Claim C10, counterexample: the hypothesis `no string value at any
candidate key at any depth` does not imply the plain-text fallback.  The
body `["hi"]` has no candidate key at all, yet the resolver returns `"hi"`
found by array iteration, not the raw JSON text; and the pretty-printed
body `{\n"output": 42\n}` satisfies the hypothesis, yet the multi-line pass
returns its first line `{` rather than the raw JSON text. -/
theorem c10_counterexample :
    ((Json.parse ("[\"hi\"]")).map hasCandidateStringIn = some false)
    ∧ parseN8nResponse ("[\"hi\"]") = ("hi")
    ∧ (("hi") : String) ≠ ("[\"hi\"]")
    ∧ ((Json.parse ("\x7b\n\"output\": 42\n\x7d")).map hasCandidateStringIn = some false)
    ∧ ((Json.parse ("\x7b\n\"output\": 42\n\x7d")).map extractAssistantContent = some (""))
    ∧ parseN8nResponse ("\x7b\n\"output\": 42\n\x7d") = ("\x7b")
    ∧ (("\x7b") : String) ≠ ("\x7b\n\"output\": 42\n\x7d") := by
  refine ⟨rfl, by decide, by decide, rfl, rfl, by decide, by decide⟩

/-- Claim C10, amended: for every single-line response body that parses as
one JSON document from which the source's recursive extraction recovers no
string, the resolver falls through to the plain-text fallback and returns
the raw body text itself, never an empty string; in particular
`{"output": 42}` resolves to its own text. -/
theorem c10_amended (raw : String) (j : Json)
    (hparse : Json.parse raw = some j)
    (hempty : extractAssistantContent j = "")
    (hnl : ('\n') ∉ (jsTrim raw).data) :
    parseN8nResponse raw = raw := by
  have hraw : raw ≠ "" := parse_ne_empty raw j hparse
  have h1 : resolverAfterNdjson raw = "" := by
    unfold resolverAfterNdjson resolverWholeJson
    by_cases hl : leadingJsonCharTest raw = true
    · simp [hparse, hl, hraw, hempty, splitLines_single _ hnl]
    · simp [hl, hraw, splitLines_single _ hnl]
  unfold parseN8nResponse
  simp [h1, hraw]

/-- Claim C10, witness: `{"output": 42}` resolves to its own raw text. -/
theorem c10_witness :
    parseN8nResponse ("\x7b\"output\": 42\x7d") = ("\x7b\"output\": 42\x7d") :=
  c10_amended ("\x7b\"output\": 42\x7d") (Json.obj [(("output"), Json.num 42)])
    rfl (by decide) (by decide)

/-! ### Claim C9 -/

/-- Claim C9: for every locale code outside the five supported locales, the
locale setter logs a warning and leaves the in-memory locale, the persisted
cookie, and the persisted local-storage entry unchanged. -/
theorem c9_unsupported_locale (st : LocaleState) (code : String)
    (h : SUPPORTED_LOCALE_CODES.contains code = false) :
    (setLocale st code).locale = st.locale
    ∧ (setLocale st code).cookie = st.cookie
    ∧ (setLocale st code).storage = st.storage
    ∧ (setLocale st code).warnings = st.warnings ++ [("Unsupported locale: " ++ code)]
    ∧ SUPPORTED_LOCALE_CODES.length = 5 := by
  have h' : code ∉ SUPPORTED_LOCALE_CODES := by simpa using h
  refine ⟨?_, ?_, ?_, ?_, rfl⟩ <;> simp [setLocale, h']

/-- Claim C9, witness: the unsupported code `xx` is rejected with a warning
and the state is unchanged. -/
theorem c9_witness :
    (setLocale ⟨("es-UY"), none, none, []⟩ ("xx")).locale = ("es-UY")
    ∧ (setLocale ⟨("es-UY"), none, none, []⟩ ("xx")).warnings
        = [("Unsupported locale: xx")] := by
  obtain ⟨h1, _, _, h4, _⟩ :=
    c9_unsupported_locale ⟨("es-UY"), none, none, []⟩ ("xx") (by decide)
  exact ⟨h1, by simpa using h4⟩

/-! ### Parser inversion lemmas for claim C4 -/

theorem parseNum_shape (cs : List Char) (v : Json) (r : List Char)
    (h : parseNum cs = some (v, r)) : ∃ q, v = Json.num q := by
  unfold parseNum at h
  split at h
  next heq =>
    split at h
    · exact Option.noConfusion h
    next ip cs2 heq2 =>
      split at h
      · exact Option.noConfusion h
      next fd cs3 heq3 =>
        split at h
        · exact Option.noConfusion h
        next exNeg ed cs4 heq4 =>
          simp only [Option.some.injEq, Prod.mk.injEq] at h
          exact ⟨_, h.1.symm⟩

theorem parseObjMembers_shape (f : Nat) :
    (∀ cs v r, parseObj f cs = some (v, r) → ∃ fs, v = Json.obj fs)
    ∧ (∀ cs acc v r, parseMembers f cs acc = some (v, r) → ∃ fs, v = Json.obj fs) := by
  induction f with
  | zero =>
    constructor
    · intro cs v r h
      simp [parseObj] at h
    · intro cs acc v r h
      simp [parseMembers] at h
  | succ f ih =>
    constructor
    · intro cs v r h
      unfold parseObj at h
      split at h
      · simp only [Option.some.injEq, Prod.mk.injEq] at h
        exact ⟨[], h.1.symm⟩
      · exact ih.2 _ _ _ _ h
    · intro cs acc v r h
      unfold parseMembers at h
      split at h
      · split at h
        · exact Option.noConfusion h
        · split at h
          · split at h
            · exact Option.noConfusion h
            · split at h
              · exact ih.2 _ _ _ _ h
              · simp only [Option.some.injEq, Prod.mk.injEq] at h
                exact ⟨_, h.1.symm⟩
              · exact Option.noConfusion h
          · exact Option.noConfusion h
      · exact Option.noConfusion h

theorem parseVal_arr_head (f : Nat) (cs : List Char) (xs : List Json) (rem : List Char)
    (h : parseVal f cs = some (Json.arr xs, rem)) : ∃ rest, cs = ('[') :: rest := by
  match f, cs with
  | 0, cs => simp [parseVal] at h
  | f + 1, [] => simp [parseVal] at h
  | f + 1, c :: rest =>
    rw [show parseVal (f + 1) (c :: rest)
        = (if c = '{' then parseObj f rest
           else if c = '[' then parseArr f rest
           else if c = '"' then
             match parseStringBody f rest with
             | none => none
             | some (s, r) => some (Json.str (String.mk s), r)
           else if c = 't' then
             if ['r', 'u', 'e'].isPrefixOf rest then some (Json.bool true, rest.drop 3)
             else none
           else if c = 'f' then
             if ['a', 'l', 's', 'e'].isPrefixOf rest then some (Json.bool false, rest.drop 4)
             else none
           else if c = 'n' then
             if ['u', 'l', 'l'].isPrefixOf rest then some (Json.null, rest.drop 3)
             else none
           else if c = '-' ∨ c.isDigit then parseNum (c :: rest)
           else none) from rfl] at h
    by_cases h1 : c = '{'
    · rw [if_pos h1] at h
      obtain ⟨fs, hfs⟩ := (parseObjMembers_shape f).1 _ _ _ h
      simp at hfs
    · rw [if_neg h1] at h
      by_cases h2 : c = '['
      · exact ⟨rest, by rw [h2]⟩
      · rw [if_neg h2] at h
        by_cases h3 : c = '"'
        · rw [if_pos h3] at h
          split at h
          · exact Option.noConfusion h
          · simp at h
        · rw [if_neg h3] at h
          by_cases h4 : c = 't'
          · rw [if_pos h4] at h
            split at h
            · simp at h
            · exact Option.noConfusion h
          · rw [if_neg h4] at h
            by_cases h5 : c = 'f'
            · rw [if_pos h5] at h
              split at h
              · simp at h
              · exact Option.noConfusion h
            · rw [if_neg h5] at h
              by_cases h6 : c = 'n'
              · rw [if_pos h6] at h
                split at h
                · simp at h
                · exact Option.noConfusion h
              · rw [if_neg h6] at h
                by_cases h7 : c = '-' ∨ c.isDigit
                · rw [if_pos h7] at h
                  obtain ⟨q, hq⟩ := parseNum_shape _ _ _ h
                  simp at hq
                · rw [if_neg h7] at h
                  exact Option.noConfusion h

theorem dropWhile_append_all {p : Char → Bool} (pre l : List Char)
    (hpre : ∀ c ∈ pre, p c = true) :
    (pre ++ l).dropWhile p = l.dropWhile p := by
  induction pre with
  | nil => rfl
  | cons c rest ih =>
    have hc : p c = true := hpre c (by simp)
    simp only [List.cons_append, List.dropWhile_cons, hc, if_true]
    exact ih (fun c' hc' => hpre c' (List.mem_cons_of_mem c hc'))

theorem jsonWsCode_regexCode (n : Nat) (h : isJsonWsCode n = true) :
    isRegexWsCode n = true := by
  simp only [isJsonWsCode, Bool.or_eq_true, decide_eq_true_eq] at h
  rcases h with ((h | h) | h) | h <;> subst h <;> decide

theorem jsonWs_regexClass (c : Char) (h : isJsonWs c = true) :
    isRegexWsClass c = true :=
  jsonWsCode_regexCode c.toNat h

theorem parse_arr_leading (raw : String) (xs : List Json)
    (h : Json.parse raw = some (Json.arr xs)) : leadingJsonCharTest raw = true := by
  unfold Json.parse at h
  split at h
  next v rem heq =>
    split at h
    · replace h : v = Json.arr xs := by
        simpa using h
      subst h
      obtain ⟨rest, hrest⟩ := parseVal_arr_head _ _ _ _ heq
      unfold skipWs at hrest
      have hdecomp : raw.data.takeWhile isJsonWs ++ (('[') :: rest) = raw.data := by
        rw [← hrest]
        exact List.takeWhile_append_dropWhile isJsonWs raw.data
      unfold leadingJsonCharTest
      rw [← hdecomp,
        dropWhile_append_all _ _
          (fun c hc => jsonWs_regexClass c (List.mem_takeWhile_imp hc))]
      rfl
    · exact Option.noConfusion h
  next heq => exact Option.noConfusion h

/-! ### Claim C4 -/

theorem extract_arr_fastpath (xs : List Json) (s : String)
    (hfast : arrayOutputFastPath xs = some s) :
    extractAssistantContent (Json.arr xs) = s := by
  unfold extractAssistantContent
  simp [extractAC, jsTruthy, firstDirect, getStrField, getField, candidateKeys, hfast, sizeJ]

/-- Claim C4, counterexample: on `[{"output":""}]` the first array element's
`output` field is the (empty) string, but the resolver does not return it —
the empty extraction falls through to the raw-text fallback and the whole
body text comes back instead. -/
theorem c4_counterexample :
    ((match Json.parse ("[\x7b\"output\":\"\"\x7d]") with
      | some (Json.arr xs) => arrayOutputFastPath xs
      | _ => none) = some (""))
    ∧ parseN8nResponse ("[\x7b\"output\":\"\"\x7d]") = ("[\x7b\"output\":\"\"\x7d]")
    ∧ (("[\x7b\"output\":\"\"\x7d]") : String) ≠ ("") := by
  refine ⟨rfl, by decide, by decide⟩

/-- Claim C4, amended: for every response body that parses as a JSON array
in which the first element that is truthy with a string `output` field
carries a non-empty string `s`, the resolver returns `s` — the fast path
wins before the generic per-key search is applied to any element; in
particular `[{"output":"x"},{"output":"y"}]` resolves to `"x"`. -/
theorem c4_amended (raw : String) (xs : List Json) (s : String)
    (hparse : Json.parse raw = some (Json.arr xs))
    (hfast : arrayOutputFastPath xs = some s)
    (hne : s ≠ "") :
    parseN8nResponse raw = s := by
  have hlead : leadingJsonCharTest raw = true := parse_arr_leading raw xs hparse
  have hx : extractAssistantContent (Json.arr xs) = s := extract_arr_fastpath xs s hfast
  exact (resolver_of_whole_parse raw (Json.arr xs) hlead hparse
    (by rw [hx]; exact hne)).trans hx

/-- Claim C4, witness: `[{"output":"x"},{"output":"y"}]` resolves to `"x"`. -/
theorem c4_witness :
    parseN8nResponse ("[\x7b\"output\":\"x\"\x7d,\x7b\"output\":\"y\"\x7d]") = ("x") :=
  c4_amended ("[\x7b\"output\":\"x\"\x7d,\x7b\"output\":\"y\"\x7d]")
    [Json.obj [(("output"), Json.str ("x"))], Json.obj [(("output"), Json.str ("y"))]]
    ("x") rfl rfl (by decide)

/-! ### Trim idempotence, for the double trim in the send flow -/

theorem dropWhile_idem {α : Type} {p : α → Bool} (l : List α) :
    (l.dropWhile p).dropWhile p = l.dropWhile p := by
  induction l with
  | nil => rfl
  | cons c rest ih =>
    by_cases hc : p c = true
    · rw [List.dropWhile_cons, if_pos hc]
      exact ih
    · rw [List.dropWhile_cons, if_neg hc, List.dropWhile_cons, if_neg hc]

theorem dropWhile_head?_false {α : Type} {p : α → Bool} (l : List α) (c : α)
    (h : (l.dropWhile p).head? = some c) : p c = false := by
  induction l with
  | nil => simp at h
  | cons d ds ih =>
    by_cases hd : p d = true
    · rw [List.dropWhile_cons, if_pos hd] at h
      exact ih h
    · rw [List.dropWhile_cons, if_neg hd] at h
      simp only [List.head?_cons, Option.some.injEq] at h
      subst h
      simpa using hd

theorem jsTrim_clean_head (cs : List Char) (c : Char)
    (h : (jsTrimList cs).head? = some c) : isJsWs c = false := by
  unfold jsTrimList at h
  rw [List.head?_reverse] at h
  have hBne : (cs.dropWhile isJsWs).reverse.dropWhile isJsWs ≠ [] := by
    intro h0
    rw [h0] at h
    simp at h
  obtain ⟨pre, hpre⟩ := List.dropWhile_suffix (l := (cs.dropWhile isJsWs).reverse) isJsWs
  have h3 : ((cs.dropWhile isJsWs).reverse).getLast? = some c := by
    rw [← hpre, List.getLast?_append_of_ne_nil _ hBne]
    exact h
  rw [List.getLast?_reverse] at h3
  exact dropWhile_head?_false cs c h3

theorem jsTrimList_idem (cs : List Char) : jsTrimList (jsTrimList cs) = jsTrimList cs := by
  have h1 : (jsTrimList cs).dropWhile isJsWs = jsTrimList cs := by
    cases hR : jsTrimList cs with
    | nil => rfl
    | cons r rs =>
      have hr : isJsWs r = false := jsTrim_clean_head cs r (by rw [hR]; rfl)
      rw [List.dropWhile_cons, if_neg (by simp [hr])]
  conv_lhs => rw [jsTrimList]
  rw [h1]
  unfold jsTrimList
  rw [List.reverse_reverse, dropWhile_idem]

theorem jsTrim_idem (s : String) : jsTrim (jsTrim s) = jsTrim s := by
  unfold jsTrim
  rw [show (String.mk (jsTrimList s.data)).data = jsTrimList s.data from rfl, jsTrimList_idem]

/-! ### Claim C7 -/

/-- Claim C7: given an ok primary response with body `b`, the caller issues
exactly one additional POST — of the same payload, to the primary URL with
`/webhook/` replaced by `/webhook-test/` — if and only if the primary
resolution is empty; when the retry yields content, that content is used,
and only when the retry also yields none is the localized unavailability
message used. -/
theorem c7_retry_iff (net : String → Option NetResponse)
    (primaryUrl locale messageContent : String) (currentMessages : List Message)
    (sendTime replyTime : Int) (b : String)
    (hguard : jsTrim messageContent ≠ "")
    (hnet : net primaryUrl = some ⟨true, b⟩) :
    ∃ res : SendResult,
      sendMessageToAI net primaryUrl locale messageContent currentMessages
          sendTime replyTime false = some res
      ∧ (parseN8nResponse b ≠ "" →
          res.requests
            = [(primaryUrl, buildPayload messageContent sendTime locale currentMessages)]
          ∧ res.finalMessages
            = currentMessages ++ [assistantMessageFor (parseN8nResponse b) replyTime])
      ∧ (parseN8nResponse b = "" →
          res.requests
            = [(primaryUrl, buildPayload messageContent sendTime locale currentMessages),
               (testWebhookUrlOf primaryUrl,
                buildPayload messageContent sendTime locale currentMessages)])
      ∧ (∀ rt : NetResponse, parseN8nResponse b = "" →
          net (testWebhookUrlOf primaryUrl) = some rt → rt.ok = true →
          parseN8nResponse rt.body ≠ "" →
          res.finalMessages
            = currentMessages ++ [assistantMessageFor (parseN8nResponse rt.body) replyTime])
      ∧ (parseN8nResponse b = "" →
          (∀ rt : NetResponse, net (testWebhookUrlOf primaryUrl) = some rt →
            rt.ok = false ∨ parseN8nResponse rt.body = "") →
          res.finalMessages
            = currentMessages
                ++ [assistantMessageFor (t locale ("error.unavailable")) replyTime]) := by
  unfold sendMessageToAI
  rw [if_neg (by simp [hguard])]
  refine ⟨_, rfl, ?_, ?_, ?_, ?_⟩
  · intro h1
    constructor <;> simp [hnet, h1, jsOrStr]
  · intro h1
    simp [hnet, h1]
  · intro rt h1 hrt hok hne
    simp [hnet, h1, hrt, hok, jsOrStr, hne]
  · intro h1 hno
    cases hrt : net (testWebhookUrlOf primaryUrl) with
    | none => simp [hnet, h1, hrt, jsOrStr]
    | some rt =>
      rcases hno rt hrt with hok | hbody
      · have hok2 : rt.ok ≠ true := by simp [hok]
        simp [hnet, h1, hrt, hok2, jsOrStr]
      · by_cases hok2 : rt.ok = true
        · simp [hnet, h1, hrt, hok2, hbody, jsOrStr]
        · simp [hnet, h1, hrt, hok2, jsOrStr]

/-- Claim C7, witness: an ok-but-empty primary response triggers exactly one
retry of the same payload against the test URL, whose content is used. -/
theorem c7_witness :
    ∃ res : SendResult,
      sendMessageToAI
          (fun u =>
            if u = ("http://h/webhook/x") then some ⟨true, ""⟩
            else if u = ("http://h/webhook-test/x") then some ⟨true, ("pong")⟩
            else none)
          ("http://h/webhook/x") ("en") ("hola") [] 0 0 false = some res
      ∧ res.requests
          = [(("http://h/webhook/x"), buildPayload ("hola") 0 ("en") []),
             (("http://h/webhook-test/x"), buildPayload ("hola") 0 ("en") [])]
      ∧ res.finalMessages = [assistantMessageFor ("pong") 0] := by
  obtain ⟨res, h1, h2, h3, h4, h5⟩ :=
    c7_retry_iff
      (fun u =>
        if u = ("http://h/webhook/x") then some ⟨true, ""⟩
        else if u = ("http://h/webhook-test/x") then some ⟨true, ("pong")⟩
        else none)
      ("http://h/webhook/x") ("en") ("hola") [] 0 0 ("") (by decide) (by decide)
  have hurl : testWebhookUrlOf ("http://h/webhook/x") = ("http://h/webhook-test/x") := by decide
  have h6 := h4 ⟨true, ("pong")⟩ rfl (by rw [hurl]; decide) rfl (by decide)
  have h7 : parseN8nResponse ("pong") = ("pong") := by decide
  rw [h7] at h6
  refine ⟨res, h1, ?_, by simpa using h6⟩
  have h8 := h3 rfl
  rw [hurl] at h8
  exact h8

/-! ### Claim C8 -/

theorem sendMessageToAI_effects (net : String → Option NetResponse)
    (purl locale mc : String) (msgs : List Message) (st rt : Int)
    (h : jsTrim mc ≠ "") :
    ∃ res : SendResult,
      sendMessageToAI net purl locale mc msgs st rt false = some res
      ∧ (∀ q ∈ res.requests, q.2 = buildPayload mc st locale msgs)
      ∧ ∃ reply : Message, res.finalMessages = msgs ++ [reply] := by
  unfold sendMessageToAI
  rw [if_neg (by simp [h])]
  refine ⟨_, rfl, ?_, ?_⟩
  · cases hn : net purl with
    | none => simp [hn]
    | some r =>
      by_cases hok : r.ok = false
      · simp [hn, hok]
      · by_cases hc1 : parseN8nResponse r.body = ""
        · simp [hn, hok, hc1]
        · simp [hn, hok, hc1]
  · cases hn : net purl with
    | none =>
      simp only [hn]
      exact ⟨_, rfl⟩
    | some r =>
      by_cases hok : r.ok = false
      · simp only [hn, hok, if_true]
        exact ⟨_, rfl⟩
      · by_cases hc1 : parseN8nResponse r.body = ""
        · simp only [hn, hok, if_false, hc1, if_true]
          exact ⟨_, rfl⟩
        · simp only [hn, hok, if_false, hc1]
          exact ⟨_, rfl⟩

theorem lastTen_length_le (l : List Message) : (lastTen l).length ≤ 10 := by
  simp only [lastTen, List.length_drop]
  omega

/-- Claim C8: on every send, the outbound `conversationHistory` is the
trailing at-most-ten messages of the optimistically updated log (its order
preserved, hence oldest first), carried alongside the trimmed new message;
and the construction never truncates or modifies the local log — the stored
list after the send is the updated log with exactly one reply appended. -/
theorem c8_outbound_context (net : String → Option NetResponse)
    (primaryUrl locale inputValue : String) (chatMessages : List Message)
    (sendTime replyTime : Int)
    (hguard : jsTrim inputValue ≠ "") :
    ∃ res : SendResult,
      handleSendMessage net primaryUrl locale inputValue chatMessages
          sendTime replyTime false = some res
      ∧ (∀ q ∈ res.requests,
          q.2.conversationHistory
            = (lastTen (chatMessages
                ++ [⟨toString sendTime, jsTrim inputValue, ("user"), sendTime⟩])).map
                projectHistory
          ∧ q.2.message = jsTrim inputValue)
      ∧ (∀ q ∈ res.requests, q.2.conversationHistory.length ≤ 10)
      ∧ (∃ reply : Message,
          res.finalMessages
            = (chatMessages ++ [⟨toString sendTime, jsTrim inputValue, ("user"), sendTime⟩])
                ++ [reply]) := by
  obtain ⟨res, hres, hpay, hreply⟩ :=
    sendMessageToAI_effects net primaryUrl locale (jsTrim inputValue)
      (chatMessages ++ [⟨toString sendTime, jsTrim inputValue, ("user"), sendTime⟩])
      sendTime replyTime (by rw [jsTrim_idem]; exact hguard)
  refine ⟨res, ?_, ?_, ?_, hreply⟩
  · unfold handleSendMessage
    rw [if_neg (by simp [hguard])]
    exact hres
  · intro q hq
    rw [hpay q hq]
    exact ⟨rfl, jsTrim_idem inputValue⟩
  · intro q hq
    have h2 : q.2.conversationHistory
        = (lastTen (chatMessages
            ++ [⟨toString sendTime, jsTrim inputValue, ("user"), sendTime⟩])).map
            projectHistory := by
      rw [hpay q hq]
      exact rfl
    rw [h2, List.length_map]
    exact lastTen_length_le _

/-- Claim C8, witness: a concrete send carries the single-message history
and the trimmed message. -/
theorem c8_witness :
    ∃ res : SendResult,
      handleSendMessage (fun _ => none) defaultWebhookUrl ("en") ("hola") [] 0 0 false
        = some res
      ∧ ∀ q ∈ res.requests,
          q.2.conversationHistory = [⟨("user"), ("hola"), 0⟩] := by
  obtain ⟨res, h1, h2, _, _⟩ :=
    c8_outbound_context (fun _ => none) defaultWebhookUrl ("en") ("hola") [] 0 0 (by decide)
  refine ⟨res, h1, fun q hq => ?_⟩
  rw [(h2 q hq).1]
  rfl

/-! ### List helpers for the parser extension argument -/

theorem dropWhile_append_of_ne {α : Type} {p : α → Bool} (l ext : List α)
    (h : l.dropWhile p ≠ []) :
    (l ++ ext).dropWhile p = l.dropWhile p ++ ext := by
  induction l with
  | nil => simp at h
  | cons c rest ih =>
    by_cases hc : p c = true
    · rw [List.dropWhile_cons, if_pos hc] at h ⊢
      rw [List.cons_append, List.dropWhile_cons, if_pos hc]
      exact ih h
    · rw [List.dropWhile_cons, if_neg hc]
      rw [List.cons_append, List.dropWhile_cons, if_neg hc]

theorem takeWhile_append_of_ne {α : Type} {p : α → Bool} (l ext : List α)
    (h : l.dropWhile p ≠ []) :
    (l ++ ext).takeWhile p = l.takeWhile p := by
  induction l with
  | nil => simp at h
  | cons c rest ih =>
    by_cases hc : p c = true
    · rw [List.dropWhile_cons, if_pos hc] at h
      rw [List.cons_append, List.takeWhile_cons, if_pos hc, List.takeWhile_cons, if_pos hc,
        ih h]
    · rw [List.cons_append, List.takeWhile_cons, if_neg hc, List.takeWhile_cons, if_neg hc]

theorem takeWhile_all_append {α : Type} {p : α → Bool} (l ext : List α)
    (hall : ∀ c ∈ l, p c = true)
    (hext : ∀ c, ext.head? = some c → p c = false) :
    (l ++ ext).takeWhile p = l ∧ (l ++ ext).dropWhile p = ext := by
  induction l with
  | nil =>
    simp only [List.nil_append]
    cases ext with
    | nil => exact ⟨rfl, rfl⟩
    | cons e es =>
      have he : p e = false := hext e rfl
      rw [List.takeWhile_cons, if_neg (by simp [he]), List.dropWhile_cons,
        if_neg (by simp [he])]
      exact ⟨rfl, rfl⟩
  | cons c rest ih =>
    have hc : p c = true := hall c (by simp)
    obtain ⟨ih1, ih2⟩ := ih (fun c' hc' => hall c' (List.mem_cons_of_mem c hc'))
    rw [List.cons_append, List.takeWhile_cons, if_pos hc, List.dropWhile_cons, if_pos hc]
    exact ⟨by rw [ih1], ih2⟩

theorem isPrefixOf_append_ext : ∀ (l rest ext : List Char),
    l.isPrefixOf rest = true → l.isPrefixOf (rest ++ ext) = true
  | [], _, _, _ => by simp
  | _ :: _, [], _, h => by simp [List.isPrefixOf] at h
  | a :: as, b :: bs, ext, h => by
    simp only [List.isPrefixOf, Bool.and_eq_true, beq_iff_eq] at h ⊢
    exact ⟨h.1, isPrefixOf_append_ext as bs ext h.2⟩

theorem drop_append_of_isPrefixOf : ∀ (l rest ext : List Char),
    l.isPrefixOf rest = true → (rest ++ ext).drop l.length = rest.drop l.length ++ ext
  | [], _, _, _ => rfl
  | _ :: _, [], _, h => by simp [List.isPrefixOf] at h
  | a :: as, b :: bs, ext, h => by
    simp only [List.isPrefixOf, Bool.and_eq_true, beq_iff_eq] at h
    simpa using drop_append_of_isPrefixOf as bs ext h.2

/-! ### Characters that cannot begin a JSON value -/

theorem parseVal_none_of_not_start (f : Nat) (c : Char) (rest : List Char)
    (h : isValueStart c = false) : parseVal f (c :: rest) = none := by
  simp only [isValueStart, Bool.or_eq_false_iff, decide_eq_false_iff_not] at h
  obtain ⟨⟨⟨⟨⟨⟨⟨h1, h2⟩, h3⟩, h4⟩, h5⟩, h6⟩, h7⟩, h8⟩ := h
  cases f with
  | zero => rfl
  | succ f =>
    rw [show parseVal (f + 1) (c :: rest)
        = (if c = '{' then parseObj f rest
           else if c = '[' then parseArr f rest
           else if c = '"' then
             match parseStringBody f rest with
             | none => none
             | some (s, r) => some (Json.str (String.mk s), r)
           else if c = 't' then
             if ['r', 'u', 'e'].isPrefixOf rest then some (Json.bool true, rest.drop 3)
             else none
           else if c = 'f' then
             if ['a', 'l', 's', 'e'].isPrefixOf rest then some (Json.bool false, rest.drop 4)
             else none
           else if c = 'n' then
             if ['u', 'l', 'l'].isPrefixOf rest then some (Json.null, rest.drop 3)
             else none
           else if c = '-' ∨ c.isDigit then parseNum (c :: rest)
           else none) from rfl]
    rw [if_neg h1, if_neg h2, if_neg h3, if_neg h4, if_neg h5, if_neg h6,
      if_neg (by simp [h7, h8])]

theorem wsChar_not_start (c : Char) (h1 : isJsWs c = true) (h2 : isJsonWs c = false) :
    isValueStart c = false := by
  have hn : c.toNat ∈ jsWsCodes := by simpa [isJsWs, isJsWsCode] using h1
  have hc : c = Char.ofNat c.toNat := (Char.ofNat_toNat c).symm
  rw [hc] at h2 ⊢
  simp only [jsWsCodes, List.mem_cons, List.not_mem_nil, or_false] at hn
  rcases hn with h | h | h | h | h | h | h | h | h | h | h | h | h |
    h | h | h | h | h | h | h | h | h | h | h | h <;>
    (rw [h] at h2 ⊢
     first
       | exact absurd h2 (by decide)
       | decide)

/-! ### Escape-sequence extension lemmas -/

theorem parseEscape_u_short (t : List Char) (h : t.length < 4) :
    parseEscape (('u') :: t) = none := by
  match t, h with
  | [], _ => rfl
  | [x], _ => rfl
  | [x, y], _ => rfl
  | [x, y, z], _ => rfl
  | x :: y :: z :: w :: r, h =>
    simp at h
    omega

theorem strOk_nil : ¬ strOk ([] : List Char) := by
  rintro ⟨f, s, r2, hf⟩
  cases f <;> simp [parseStringBody] at hf

theorem strOk_backslash (t : List Char) (hesc : parseEscape t = none) :
    ¬ strOk (('\\') :: t) := by
  rintro ⟨f, s, r2, hf⟩
  cases f with
  | zero => simp [parseStringBody] at hf
  | succ f => simp [parseStringBody, hesc] at hf

theorem lookahead_neg (n : Nat) (l : List Char)
    (hshape : ∀ a b c d t, l = ('\\') :: ('u') :: a :: b :: c :: d :: t →
      ∀ m, hex4 a b c d = some m → ¬(0xDC00 ≤ m ∧ m ≤ 0xDFFF)) :
    lowEscapeLookahead n l = (Char.ofNat 0xFFFD, l) := by
  unfold lowEscapeLookahead
  split
  next e1 e2 a2 b2 c2 d2 rest3 =>
    by_cases hc : e1 = '\\' ∧ e2 = 'u'
    · rw [if_pos hc]
      split
      next m heq =>
        rw [if_neg (hshape a2 b2 c2 d2 rest3 (by rw [hc.1, hc.2]) m heq)]
      next heq => rfl
    · rw [if_neg hc]
  next => rfl

theorem lookahead_full_eq (n : Nat) (x1 x2 x3 x4 : Char) (t : List Char) :
    lowEscapeLookahead n (('\\') :: ('u') :: x1 :: x2 :: x3 :: x4 :: t)
      = (match hex4 x1 x2 x3 x4 with
         | some m =>
           if 0xDC00 ≤ m ∧ m ≤ 0xDFFF then
             (Char.ofNat (0x10000 + (n - 0xD800) * 0x400 + (m - 0xDC00)), t)
           else (Char.ofNat 0xFFFD, ('\\') :: ('u') :: x1 :: x2 :: x3 :: x4 :: t)
         | none => (Char.ofNat 0xFFFD, ('\\') :: ('u') :: x1 :: x2 :: x3 :: x4 :: t)) := rfl

theorem lookahead_ext (n : Nat) (rest2 : List Char) (ch : Char) (r ext : List Char)
    (h : lowEscapeLookahead n rest2 = (ch, r)) (hr : strOk r) :
    lowEscapeLookahead n (rest2 ++ ext) = (ch, r ++ ext) := by
  cases rest2 with
  | nil =>
    rw [show lowEscapeLookahead n [] = (Char.ofNat 0xFFFD, ([] : List Char)) from rfl] at h
    injection h with h1 h2
    rw [← h2] at hr
    exact absurd hr strOk_nil
  | cons e1 t1 =>
    by_cases he1 : e1 = '\\'
    · subst he1
      cases t1 with
      | nil =>
        rw [show lowEscapeLookahead n [('\\')] = (Char.ofNat 0xFFFD, [('\\')]) from rfl] at h
        injection h with h1 h2
        rw [← h2] at hr
        exact absurd hr (strOk_backslash [] rfl)
      | cons e2 t2 =>
        by_cases he2 : e2 = 'u'
        · subst he2
          cases t2 with
          | nil =>
            rw [show lowEscapeLookahead n [('\\'), ('u')]
                = (Char.ofNat 0xFFFD, [('\\'), ('u')]) from rfl] at h
            injection h with h1 h2
            rw [← h2] at hr
            exact absurd hr (strOk_backslash [('u')] rfl)
          | cons x1 t3 =>
            cases t3 with
            | nil =>
              rw [show lowEscapeLookahead n [('\\'), ('u'), x1]
                  = (Char.ofNat 0xFFFD, [('\\'), ('u'), x1]) from rfl] at h
              injection h with h1 h2
              rw [← h2] at hr
              exact absurd hr (strOk_backslash [('u'), x1] (parseEscape_u_short [x1] (by simp)))
            | cons x2 t4 =>
              cases t4 with
              | nil =>
                rw [show lowEscapeLookahead n [('\\'), ('u'), x1, x2]
                    = (Char.ofNat 0xFFFD, [('\\'), ('u'), x1, x2]) from rfl] at h
                injection h with h1 h2
                rw [← h2] at hr
                exact absurd hr
                  (strOk_backslash [('u'), x1, x2] (parseEscape_u_short [x1, x2] (by simp)))
              | cons x3 t5 =>
                cases t5 with
                | nil =>
                  rw [show lowEscapeLookahead n [('\\'), ('u'), x1, x2, x3]
                      = (Char.ofNat 0xFFFD, [('\\'), ('u'), x1, x2, x3]) from rfl] at h
                  injection h with h1 h2
                  rw [← h2] at hr
                  exact absurd hr
                    (strOk_backslash [('u'), x1, x2, x3]
                      (parseEscape_u_short [x1, x2, x3] (by simp)))
                | cons x4 t6 =>
                  rw [show ((('\\') :: ('u') :: x1 :: x2 :: x3 :: x4 :: t6) ++ ext)
                      = ('\\') :: ('u') :: x1 :: x2 :: x3 :: x4 :: (t6 ++ ext) from rfl]
                  cases hhex : hex4 x1 x2 x3 x4 with
                  | none =>
                    have ha : lowEscapeLookahead n
                        (('\\') :: ('u') :: x1 :: x2 :: x3 :: x4 :: t6)
                        = (Char.ofNat 0xFFFD,
                           ('\\') :: ('u') :: x1 :: x2 :: x3 :: x4 :: t6) := by
                      rw [lookahead_full_eq, hhex]
                    have hb : lowEscapeLookahead n
                        (('\\') :: ('u') :: x1 :: x2 :: x3 :: x4 :: (t6 ++ ext))
                        = (Char.ofNat 0xFFFD,
                           ('\\') :: ('u') :: x1 :: x2 :: x3 :: x4 :: (t6 ++ ext)) := by
                      rw [lookahead_full_eq, hhex]
                    rw [ha] at h
                    injection h with h1 h2
                    rw [hb, ← h1, ← h2]
                    simp
                  | some m =>
                    by_cases hlow : 0xDC00 ≤ m ∧ m ≤ 0xDFFF
                    · have ha : lowEscapeLookahead n
                          (('\\') :: ('u') :: x1 :: x2 :: x3 :: x4 :: t6)
                          = (Char.ofNat (0x10000 + (n - 0xD800) * 0x400 + (m - 0xDC00)),
                             t6) := by
                        rw [lookahead_full_eq, hhex]
                        exact if_pos hlow
                      have hb : lowEscapeLookahead n
                          (('\\') :: ('u') :: x1 :: x2 :: x3 :: x4 :: (t6 ++ ext))
                          = (Char.ofNat (0x10000 + (n - 0xD800) * 0x400 + (m - 0xDC00)),
                             t6 ++ ext) := by
                        rw [lookahead_full_eq, hhex]
                        exact if_pos hlow
                      have h' := ha.symm.trans h
                      rw [Prod.mk.injEq] at h'
                      rw [hb, h'.1, ← h'.2]
                    · have ha : lowEscapeLookahead n
                          (('\\') :: ('u') :: x1 :: x2 :: x3 :: x4 :: t6)
                          = (Char.ofNat 0xFFFD,
                             ('\\') :: ('u') :: x1 :: x2 :: x3 :: x4 :: t6) := by
                        rw [lookahead_full_eq, hhex]
                        exact if_neg hlow
                      have hb : lowEscapeLookahead n
                          (('\\') :: ('u') :: x1 :: x2 :: x3 :: x4 :: (t6 ++ ext))
                          = (Char.ofNat 0xFFFD,
                             ('\\') :: ('u') :: x1 :: x2 :: x3 :: x4 :: (t6 ++ ext)) := by
                        rw [lookahead_full_eq, hhex]
                        exact if_neg hlow
                      rw [ha] at h
                      injection h with h1 h2
                      rw [hb, ← h1, ← h2]
                      simp
        · have hs1 : lowEscapeLookahead n (('\\') :: e2 :: t2)
              = (Char.ofNat 0xFFFD, ('\\') :: e2 :: t2) :=
            lookahead_neg n _ (by
              intro a b c d t heq m _
              apply absurd heq
              simp [he2])
          have hs2 : lowEscapeLookahead n (('\\') :: e2 :: (t2 ++ ext))
              = (Char.ofNat 0xFFFD, ('\\') :: e2 :: (t2 ++ ext)) :=
            lookahead_neg n _ (by
              intro a b c d t heq m _
              apply absurd heq
              simp [he2])
          rw [hs1] at h
          injection h with h1 h2
          rw [show ((('\\') :: e2 :: t2) ++ ext) = ('\\') :: e2 :: (t2 ++ ext) from rfl,
            hs2, ← h1, ← h2]
          simp
    · have hs1 : lowEscapeLookahead n (e1 :: t1) = (Char.ofNat 0xFFFD, e1 :: t1) :=
        lookahead_neg n _ (by
          intro a b c d t heq m _
          apply absurd heq
          simp [he1])
      have hs2 : lowEscapeLookahead n (e1 :: (t1 ++ ext))
          = (Char.ofNat 0xFFFD, e1 :: (t1 ++ ext)) :=
        lookahead_neg n _ (by
          intro a b c d t heq m _
          apply absurd heq
          simp [he1])
      rw [hs1] at h
      injection h with h1 h2
      rw [show ((e1 :: t1) ++ ext) = e1 :: (t1 ++ ext) from rfl, hs2, ← h1, ← h2]
      simp

theorem parseEscape_u_full (a b c2 d2 : Char) (rest2 : List Char) :
    parseEscape (('u') :: a :: b :: c2 :: d2 :: rest2)
      = (match hex4 a b c2 d2 with
         | none => none
         | some n =>
           if 0xD800 ≤ n ∧ n ≤ 0xDBFF then some (lowEscapeLookahead n rest2)
           else if 0xDC00 ≤ n ∧ n ≤ 0xDFFF then some (Char.ofNat 0xFFFD, rest2)
           else some (Char.ofNat n, rest2)) := rfl

theorem parseEscape_u_full_none (a b c2 d2 : Char) (rest2 : List Char)
    (hhex : hex4 a b c2 d2 = none) :
    parseEscape (('u') :: a :: b :: c2 :: d2 :: rest2) = none := by
  rw [parseEscape_u_full, hhex]

theorem parseEscape_u_full_some (a b c2 d2 : Char) (rest2 : List Char) (n : Nat)
    (hhex : hex4 a b c2 d2 = some n) :
    parseEscape (('u') :: a :: b :: c2 :: d2 :: rest2)
      = (if 0xD800 ≤ n ∧ n ≤ 0xDBFF then some (lowEscapeLookahead n rest2)
         else if 0xDC00 ≤ n ∧ n ≤ 0xDFFF then some (Char.ofNat 0xFFFD, rest2)
         else some (Char.ofNat n, rest2)) := by
  rw [parseEscape_u_full, hhex]

theorem parseEscape_nonU (c : Char) (rest : List Char) (hcu : ¬ c = 'u') :
    parseEscape (c :: rest)
      = (if c = '"' then some (('"'), rest)
         else if c = '\\' then some (('\\'), rest)
         else if c = '/' then some (('/'), rest)
         else if c = 'b' then some (Char.ofNat 8, rest)
         else if c = 'f' then some (Char.ofNat 12, rest)
         else if c = 'n' then some (('\n'), rest)
         else if c = 'r' then some (('\r'), rest)
         else if c = 't' then some (('\t'), rest)
         else none) := by
  simp only [parseEscape]
  rw [if_neg hcu]

theorem parseEscape_ext (cs : List Char) (ch : Char) (r ext : List Char)
    (h : parseEscape cs = some (ch, r)) (hr : strOk r) :
    parseEscape (cs ++ ext) = some (ch, r ++ ext) := by
  cases cs with
  | nil => simp [parseEscape] at h
  | cons c rest =>
    rw [show ((c :: rest) ++ ext) = c :: (rest ++ ext) from rfl]
    by_cases hcu : c = 'u'
    · subst hcu
      cases rest with
      | nil =>
        rw [parseEscape_u_short [] (by simp)] at h
        exact Option.noConfusion h
      | cons a t1 =>
        cases t1 with
        | nil =>
          rw [parseEscape_u_short [a] (by simp)] at h
          exact Option.noConfusion h
        | cons b t2 =>
          cases t2 with
          | nil =>
            rw [parseEscape_u_short [a, b] (by simp)] at h
            exact Option.noConfusion h
          | cons c2 t3 =>
            cases t3 with
            | nil =>
              rw [parseEscape_u_short [a, b, c2] (by simp)] at h
              exact Option.noConfusion h
            | cons d2 rest2 =>
              cases hhex : hex4 a b c2 d2 with
              | none =>
                rw [parseEscape_u_full_none a b c2 d2 rest2 hhex] at h
                exact Option.noConfusion h
              | some n =>
                rw [parseEscape_u_full_some a b c2 d2 rest2 n hhex] at h
                simp only [List.cons_append]
                rw [parseEscape_u_full_some a b c2 d2 (rest2 ++ ext) n hhex]
                by_cases hhi : 0xD800 ≤ n ∧ n ≤ 0xDBFF
                · rw [if_pos hhi] at h ⊢
                  injection h with h0
                  rw [lookahead_ext n rest2 ch r ext h0 hr]
                · rw [if_neg hhi] at h ⊢
                  by_cases hlo : 0xDC00 ≤ n ∧ n ≤ 0xDFFF
                  · rw [if_pos hlo] at h ⊢
                    injection h with h0
                    rw [Prod.mk.injEq] at h0
                    rw [h0.1, ← h0.2]
                  · rw [if_neg hlo] at h ⊢
                    injection h with h0
                    rw [Prod.mk.injEq] at h0
                    rw [h0.1, ← h0.2]
    · rw [parseEscape_nonU c rest hcu] at h
      rw [parseEscape_nonU c (rest ++ ext) hcu]
      by_cases h1 : c = '"'
      · rw [if_pos h1] at h ⊢
        injection h with h0
        rw [Prod.mk.injEq] at h0
        rw [h0.1, ← h0.2]
      · rw [if_neg h1] at h ⊢
        by_cases h2 : c = '\\'
        · rw [if_pos h2] at h ⊢
          injection h with h0
          rw [Prod.mk.injEq] at h0
          rw [h0.1, ← h0.2]
        · rw [if_neg h2] at h ⊢
          by_cases h3 : c = '/'
          · rw [if_pos h3] at h ⊢
            injection h with h0
            rw [Prod.mk.injEq] at h0
            rw [h0.1, ← h0.2]
          · rw [if_neg h3] at h ⊢
            by_cases h4 : c = 'b'
            · rw [if_pos h4] at h ⊢
              injection h with h0
              rw [Prod.mk.injEq] at h0
              rw [h0.1, ← h0.2]
            · rw [if_neg h4] at h ⊢
              by_cases h5 : c = 'f'
              · rw [if_pos h5] at h ⊢
                injection h with h0
                rw [Prod.mk.injEq] at h0
                rw [h0.1, ← h0.2]
              · rw [if_neg h5] at h ⊢
                by_cases h6 : c = 'n'
                · rw [if_pos h6] at h ⊢
                  injection h with h0
                  rw [Prod.mk.injEq] at h0
                  rw [h0.1, ← h0.2]
                · rw [if_neg h6] at h ⊢
                  by_cases h7 : c = 'r'
                  · rw [if_pos h7] at h ⊢
                    injection h with h0
                    rw [Prod.mk.injEq] at h0
                    rw [h0.1, ← h0.2]
                  · rw [if_neg h7] at h ⊢
                    by_cases h8 : c = 't'
                    · rw [if_pos h8] at h ⊢
                      injection h with h0
                      rw [Prod.mk.injEq] at h0
                      rw [h0.1, ← h0.2]
                    · rw [if_neg h8] at h ⊢
                      exact Option.noConfusion h

/-! ### String-body extension -/

theorem parseStringBody_succ_cons (f : Nat) (c : Char) (rest : List Char) :
    parseStringBody (f + 1) (c :: rest)
      = (if c = '"' then some (([] : List Char), rest)
         else if c = '\\' then
           match parseEscape rest with
           | none => none
           | some (ch, rest2) =>
             match parseStringBody f rest2 with
             | none => none
             | some (s, r) => some (ch :: s, r)
         else if c.toNat < 32 then none
         else
           match parseStringBody f rest with
           | none => none
           | some (s, r) => some (c :: s, r)) := rfl

theorem parseStringBody_ext (f : Nat) : ∀ (k : Nat) (cs s r ext : List Char),
    parseStringBody f cs = some (s, r) →
    parseStringBody (f + k) (cs ++ ext) = some (s, r ++ ext) := by
  induction f with
  | zero =>
    intro k cs s r ext h
    simp [parseStringBody] at h
  | succ f ih =>
    intro k cs s r ext h
    cases cs with
    | nil => simp [parseStringBody] at h
    | cons c rest =>
      rw [Nat.add_right_comm f 1 k, List.cons_append]
      rw [parseStringBody_succ_cons] at h
      rw [parseStringBody_succ_cons]
      by_cases h1 : c = '"'
      · rw [if_pos h1] at h ⊢
        injection h with h0
        rw [Prod.mk.injEq] at h0
        rw [← h0.1, ← h0.2]
      · rw [if_neg h1] at h ⊢
        by_cases h2 : c = '\\'
        · rw [if_pos h2] at h ⊢
          cases hesc : parseEscape rest with
          | none =>
            rw [hesc] at h
            exact Option.noConfusion h
          | some pr =>
            obtain ⟨ch, rest2⟩ := pr
            simp only [hesc] at h
            cases hb : parseStringBody f rest2 with
            | none =>
              rw [hb] at h
              exact Option.noConfusion h
            | some pr2 =>
              obtain ⟨s2, r2⟩ := pr2
              rw [hb] at h
              injection h with h0
              rw [Prod.mk.injEq] at h0
              have hre := parseEscape_ext rest ch rest2 ext hesc ⟨f, s2, r2, hb⟩
              have hext := ih k rest2 s2 r2 ext hb
              simp only [hre, hext]
              rw [← h0.1, ← h0.2]
        · rw [if_neg h2] at h ⊢
          by_cases h3 : c.toNat < 32
          · rw [if_pos h3] at h
            exact Option.noConfusion h
          · rw [if_neg h3] at h ⊢
            cases hb : parseStringBody f rest with
            | none =>
              rw [hb] at h
              exact Option.noConfusion h
            | some pr2 =>
              obtain ⟨s2, r2⟩ := pr2
              rw [hb] at h
              injection h with h0
              rw [Prod.mk.injEq] at h0
              have hext := ih k rest s2 r2 ext hb
              simp only [hext]
              rw [← h0.1, ← h0.2]

/-! ### Number extension -/

theorem not_numCont (e : Char) (h : isNumCont e = false) :
    e.isDigit = false ∧ ¬ e = '.' ∧ ¬ e = 'e' ∧ ¬ e = 'E' := by
  simp only [isNumCont, Bool.or_eq_false_iff, decide_eq_false_iff_not] at h
  exact ⟨h.1.1.1, h.1.1.2, h.1.2, h.2⟩

theorem digits_span_ext (l ext : List Char)
    (hcond : l.dropWhile Char.isDigit ≠ [] ∨ safePad ext) :
    (l ++ ext).takeWhile Char.isDigit = l.takeWhile Char.isDigit
    ∧ (l ++ ext).dropWhile Char.isDigit = l.dropWhile Char.isDigit ++ ext := by
  by_cases hne : l.dropWhile Char.isDigit = []
  · have hsp : safePad ext := by
      rcases hcond with hc | hc
      · exact absurd hne hc
      · exact hc
    have hall : ∀ c ∈ l, Char.isDigit c = true := List.dropWhile_eq_nil_iff.mp hne
    have hext : ∀ c, ext.head? = some c → Char.isDigit c = false :=
      fun c hc => (not_numCont c (hsp c hc)).1
    obtain ⟨h1, h2⟩ := takeWhile_all_append l ext hall hext
    have htl : l.takeWhile Char.isDigit = l := by
      have := List.takeWhile_append_dropWhile (p := Char.isDigit) (l := l)
      rw [hne, List.append_nil] at this
      exact this
    refine ⟨by rw [h1, htl], by rw [h2, hne, List.nil_append]⟩
  · exact ⟨takeWhile_append_of_ne l ext hne, dropWhile_append_of_ne l ext hne⟩

theorem parseIntPart_ext (cs : List Char) (ip r ext : List Char)
    (h : parseIntPart cs = some (ip, r))
    (hr : r ≠ [] ∨ safePad ext) :
    parseIntPart (cs ++ ext) = some (ip, r ++ ext) := by
  cases cs with
  | nil => simp [parseIntPart] at h
  | cons c rest =>
    rw [List.cons_append]
    by_cases hc0 : c = '0'
    · subst hc0
      cases rest with
      | nil =>
        rw [show parseIntPart [('0')] = some ([('0')], ([] : List Char)) from rfl] at h
        injection h with h0
        rw [Prod.mk.injEq] at h0
        obtain ⟨hip, hre⟩ := h0
        have hsp : safePad ext := by
          rcases hr with hne | hsp
          · exact absurd hre.symm hne
          · exact hsp
        rw [List.nil_append, ← hip, ← hre, List.nil_append]
        cases ext with
        | nil => rfl
        | cons e es =>
          have he : e.isDigit = false := (not_numCont e (hsp e rfl)).1
          rw [show parseIntPart (('0') :: e :: es)
              = (if e.isDigit = true then none else some ([('0')], e :: es)) from rfl,
            if_neg (by simp [he])]
      | cons q t =>
        rw [show parseIntPart (('0') :: q :: t)
            = (if q.isDigit = true then none else some ([('0')], q :: t)) from rfl] at h
        by_cases hq : q.isDigit = true
        · rw [if_pos hq] at h
          exact Option.noConfusion h
        · rw [if_neg hq] at h
          injection h with h0
          rw [Prod.mk.injEq] at h0
          rw [List.cons_append,
            show parseIntPart (('0') :: q :: (t ++ ext))
              = (if q.isDigit = true then none
                 else some ([('0')], q :: (t ++ ext))) from rfl,
            if_neg hq, ← h0.1, ← h0.2, List.cons_append]
    · by_cases hcd : c.isDigit = true
      · have heq : parseIntPart (c :: rest)
            = some (c :: rest.takeWhile Char.isDigit, rest.dropWhile Char.isDigit) := by
          simp only [parseIntPart]
          rw [if_neg hc0, if_pos hcd]
        have heq2 : parseIntPart (c :: (rest ++ ext))
            = some (c :: (rest ++ ext).takeWhile Char.isDigit,
                (rest ++ ext).dropWhile Char.isDigit) := by
          simp only [parseIntPart]
          rw [if_neg hc0, if_pos hcd]
        rw [heq] at h
        injection h with h0
        rw [Prod.mk.injEq] at h0
        have hcond : rest.dropWhile Char.isDigit ≠ [] ∨ safePad ext := by
          rw [h0.2]
          exact hr
        obtain ⟨ht, hd⟩ := digits_span_ext rest ext hcond
        rw [heq2, ht, hd, ← h0.2, h0.1]
      · have heq : parseIntPart (c :: rest) = none := by
          simp only [parseIntPart]
          rw [if_neg hc0, if_neg hcd]
        rw [heq] at h
        exact Option.noConfusion h

theorem parseFracPart_ext (cs : List Char) (fd r ext : List Char)
    (h : parseFracPart cs = some (fd, r))
    (hr : r ≠ [] ∨ safePad ext) :
    parseFracPart (cs ++ ext) = some (fd, r ++ ext) := by
  cases cs with
  | nil =>
    rw [show parseFracPart ([] : List Char) = some (([] : List Char), ([] : List Char))
        from rfl] at h
    injection h with h0
    rw [Prod.mk.injEq] at h0
    obtain ⟨hfd, hre⟩ := h0
    have hsp : safePad ext := by
      rcases hr with hne | hsp
      · exact absurd hre.symm hne
      · exact hsp
    rw [List.nil_append, ← hfd, ← hre, List.nil_append]
    cases ext with
    | nil => rfl
    | cons e es =>
      have he : ¬ e = '.' := (not_numCont e (hsp e rfl)).2.1
      rw [show parseFracPart (e :: es)
          = (if e = '.' then
               if es.takeWhile Char.isDigit = [] then none
               else some (es.takeWhile Char.isDigit, es.dropWhile Char.isDigit)
             else some ([], e :: es)) from rfl]
      rw [if_neg he]
  | cons c rest =>
    rw [List.cons_append]
    rw [show parseFracPart (c :: rest)
        = (if c = '.' then
             if rest.takeWhile Char.isDigit = [] then none
             else some (rest.takeWhile Char.isDigit, rest.dropWhile Char.isDigit)
           else some ([], c :: rest)) from rfl] at h
    rw [show parseFracPart (c :: (rest ++ ext))
        = (if c = '.' then
             if (rest ++ ext).takeWhile Char.isDigit = [] then none
             else some ((rest ++ ext).takeWhile Char.isDigit,
               (rest ++ ext).dropWhile Char.isDigit)
           else some ([], c :: (rest ++ ext))) from rfl]
    by_cases hdot : c = '.'
    · rw [if_pos hdot] at h ⊢
      by_cases hds : rest.takeWhile Char.isDigit = []
      · rw [if_pos hds] at h
        exact Option.noConfusion h
      · rw [if_neg hds] at h
        injection h with h0
        rw [Prod.mk.injEq] at h0
        have hcond : rest.dropWhile Char.isDigit ≠ [] ∨ safePad ext := by
          rw [h0.2]
          exact hr
        obtain ⟨ht, hd⟩ := digits_span_ext rest ext hcond
        rw [ht, hd, if_neg hds, ← h0.2, h0.1]
    · rw [if_neg hdot] at h ⊢
      injection h with h0
      rw [Prod.mk.injEq] at h0
      rw [← h0.1, ← h0.2, List.cons_append]

theorem parseExpPart_e_cons (c s : Char) (r2 : List Char) (hce : c = 'e' ∨ c = 'E') :
    parseExpPart (c :: s :: r2)
      = (if s = '-' then
           if r2.takeWhile Char.isDigit = [] then none
           else some ((true, r2.takeWhile Char.isDigit), r2.dropWhile Char.isDigit)
         else if s = '+' then
           if r2.takeWhile Char.isDigit = [] then none
           else some ((false, r2.takeWhile Char.isDigit), r2.dropWhile Char.isDigit)
         else
           if (s :: r2).takeWhile Char.isDigit = [] then none
           else some ((false, (s :: r2).takeWhile Char.isDigit),
             (s :: r2).dropWhile Char.isDigit)) := by
  simp only [parseExpPart]
  rw [if_pos hce]
  by_cases hs1 : s = '-'
  · rw [if_pos hs1, if_pos hs1]
  · rw [if_neg hs1, if_neg hs1]
    by_cases hs2 : s = '+'
    · rw [if_pos hs2, if_pos hs2]
    · rw [if_neg hs2, if_neg hs2]

theorem parseExpPart_ext (cs : List Char) (sg : Bool × List Char) (r ext : List Char)
    (h : parseExpPart cs = some (sg, r))
    (hr : r ≠ [] ∨ safePad ext) :
    parseExpPart (cs ++ ext) = some (sg, r ++ ext) := by
  cases cs with
  | nil =>
    rw [show parseExpPart ([] : List Char)
        = some ((false, ([] : List Char)), ([] : List Char)) from rfl] at h
    injection h with h0
    rw [Prod.mk.injEq] at h0
    obtain ⟨hsg, hre⟩ := h0
    have hsp : safePad ext := by
      rcases hr with hne | hsp
      · exact absurd hre.symm hne
      · exact hsp
    rw [List.nil_append, ← hsg, ← hre, List.nil_append]
    cases ext with
    | nil => rfl
    | cons e es =>
      have hne := not_numCont e (hsp e rfl)
      have hce : ¬ (e = 'e' ∨ e = 'E') := by
        rintro (he | he)
        · exact hne.2.2.1 he
        · exact hne.2.2.2 he
      simp only [parseExpPart]
      rw [if_neg hce]
  | cons c rest =>
    rw [List.cons_append]
    by_cases hce : c = 'e' ∨ c = 'E'
    · cases rest with
      | nil =>
        have heq : parseExpPart [c] = none := by
          simp only [parseExpPart]
          rw [if_pos hce]
          rfl
        rw [heq] at h
        exact Option.noConfusion h
      | cons s r2 =>
        rw [parseExpPart_e_cons c s r2 hce] at h
        rw [List.cons_append, parseExpPart_e_cons c s (r2 ++ ext) hce]
        by_cases hs1 : s = '-'
        · rw [if_pos hs1] at h ⊢
          by_cases hds : r2.takeWhile Char.isDigit = []
          · rw [if_pos hds] at h
            exact Option.noConfusion h
          · rw [if_neg hds] at h
            injection h with h0
            rw [Prod.mk.injEq] at h0
            have hcond : r2.dropWhile Char.isDigit ≠ [] ∨ safePad ext := by
              rw [h0.2]
              exact hr
            obtain ⟨ht, hd⟩ := digits_span_ext r2 ext hcond
            rw [ht, hd, if_neg hds, ← h0.2, h0.1]
        · rw [if_neg hs1] at h ⊢
          by_cases hs2 : s = '+'
          · rw [if_pos hs2] at h ⊢
            by_cases hds : r2.takeWhile Char.isDigit = []
            · rw [if_pos hds] at h
              exact Option.noConfusion h
            · rw [if_neg hds] at h
              injection h with h0
              rw [Prod.mk.injEq] at h0
              have hcond : r2.dropWhile Char.isDigit ≠ [] ∨ safePad ext := by
                rw [h0.2]
                exact hr
              obtain ⟨ht, hd⟩ := digits_span_ext r2 ext hcond
              rw [ht, hd, if_neg hds, ← h0.2, h0.1]
          · rw [if_neg hs2] at h ⊢
            by_cases hds : (s :: r2).takeWhile Char.isDigit = []
            · rw [if_pos hds] at h
              exact Option.noConfusion h
            · rw [if_neg hds] at h
              injection h with h0
              rw [Prod.mk.injEq] at h0
              have hcond : (s :: r2).dropWhile Char.isDigit ≠ [] ∨ safePad ext := by
                rw [h0.2]
                exact hr
              obtain ⟨ht, hd⟩ := digits_span_ext (s :: r2) ext hcond
              rw [show s :: (r2 ++ ext) = (s :: r2) ++ ext from rfl, ht, hd,
                if_neg hds, ← h0.2, h0.1]
    · have heq : parseExpPart (c :: rest) = some ((false, []), c :: rest) := by
        simp only [parseExpPart]
        rw [if_neg hce]
      have heq2 : parseExpPart (c :: (rest ++ ext))
          = some ((false, []), c :: (rest ++ ext)) := by
        simp only [parseExpPart]
        rw [if_neg hce]
      rw [heq] at h
      injection h with h0
      rw [Prod.mk.injEq] at h0
      rw [heq2, ← h0.1, ← h0.2, List.cons_append]

theorem parseNum_tail_ext (cs1 : List Char) (neg : Bool) (v : Json) (r ext : List Char)
    (h : (match parseIntPart cs1 with
          | none => none
          | some (ip, cs2) =>
            match parseFracPart cs2 with
            | none => none
            | some (fd, cs3) =>
              match parseExpPart cs3 with
              | none => none
              | some ((exNeg, ed), cs4) =>
                some (Json.num (numValue neg ip fd exNeg ed), cs4))
        = some (v, r))
    (hr : r ≠ [] ∨ safePad ext) :
    (match parseIntPart (cs1 ++ ext) with
     | none => none
     | some (ip, cs2) =>
       match parseFracPart cs2 with
       | none => none
       | some (fd, cs3) =>
         match parseExpPart cs3 with
         | none => none
         | some ((exNeg, ed), cs4) =>
           some (Json.num (numValue neg ip fd exNeg ed), cs4))
      = some (v, r ++ ext) := by
  cases hip : parseIntPart cs1 with
  | none =>
    rw [hip] at h
    exact Option.noConfusion h
  | some p1 =>
    obtain ⟨ip, cs2⟩ := p1
    simp only [hip] at h
    cases hfp : parseFracPart cs2 with
    | none =>
      rw [hfp] at h
      exact Option.noConfusion h
    | some p2 =>
      obtain ⟨fd, cs3⟩ := p2
      simp only [hfp] at h
      cases hep : parseExpPart cs3 with
      | none =>
        rw [hep] at h
        exact Option.noConfusion h
      | some p3 =>
        obtain ⟨sg, cs4⟩ := p3
        obtain ⟨exNeg, ed⟩ := sg
        simp only [hep] at h
        injection h with h0
        rw [Prod.mk.injEq] at h0
        have hc4 : cs4 ≠ [] ∨ safePad ext := by
          rw [h0.2]
          exact hr
        have hc3 : cs3 ≠ [] ∨ safePad ext := by
          by_cases h3 : cs3 = []
          · right
            rw [h3] at hep
            rw [show parseExpPart ([] : List Char)
                = some ((false, ([] : List Char)), ([] : List Char)) from rfl] at hep
            injection hep with hep0
            rw [Prod.mk.injEq] at hep0
            rcases hc4 with hne | hsp
            · exact absurd hep0.2.symm hne
            · exact hsp
          · exact Or.inl h3
        have hc2 : cs2 ≠ [] ∨ safePad ext := by
          by_cases h2 : cs2 = []
          · right
            rw [h2] at hfp
            rw [show parseFracPart ([] : List Char)
                = some (([] : List Char), ([] : List Char)) from rfl] at hfp
            injection hfp with hfp0
            rw [Prod.mk.injEq] at hfp0
            rcases hc3 with hne | hsp
            · exact absurd hfp0.2.symm hne
            · exact hsp
          · exact Or.inl h2
        simp only [parseIntPart_ext cs1 ip cs2 ext hip hc2,
          parseFracPart_ext cs2 fd cs3 ext hfp hc3,
          parseExpPart_ext cs3 (exNeg, ed) cs4 ext hep hc4]
        rw [h0.1, h0.2]

theorem parseNum_ext (cs : List Char) (v : Json) (r ext : List Char)
    (h : parseNum cs = some (v, r))
    (hr : r ≠ [] ∨ safePad ext) :
    parseNum (cs ++ ext) = some (v, r ++ ext) := by
  cases cs with
  | nil =>
    rw [show parseNum ([] : List Char) = none from rfl] at h
    exact Option.noConfusion h
  | cons c rest =>
    rw [List.cons_append]
    by_cases hneg : c = '-'
    · subst hneg
      rw [show parseNum (('-') :: rest)
          = (match parseIntPart rest with
             | none => none
             | some (ip, cs2) =>
               match parseFracPart cs2 with
               | none => none
               | some (fd, cs3) =>
                 match parseExpPart cs3 with
                 | none => none
                 | some ((exNeg, ed), cs4) =>
                   some (Json.num (numValue true ip fd exNeg ed), cs4)) from rfl] at h
      rw [show parseNum (('-') :: (rest ++ ext))
          = (match parseIntPart (rest ++ ext) with
             | none => none
             | some (ip, cs2) =>
               match parseFracPart cs2 with
               | none => none
               | some (fd, cs3) =>
                 match parseExpPart cs3 with
                 | none => none
                 | some ((exNeg, ed), cs4) =>
                   some (Json.num (numValue true ip fd exNeg ed), cs4)) from rfl]
      exact parseNum_tail_ext rest true v r ext h hr
    · have heq : parseNum (c :: rest)
          = (match parseIntPart (c :: rest) with
             | none => none
             | some (ip, cs2) =>
               match parseFracPart cs2 with
               | none => none
               | some (fd, cs3) =>
                 match parseExpPart cs3 with
                 | none => none
                 | some ((exNeg, ed), cs4) =>
                   some (Json.num (numValue false ip fd exNeg ed), cs4)) := by
        simp only [parseNum]
        rw [if_neg hneg]
      have heq2 : parseNum (c :: (rest ++ ext))
          = (match parseIntPart (c :: (rest ++ ext)) with
             | none => none
             | some (ip, cs2) =>
               match parseFracPart cs2 with
               | none => none
               | some (fd, cs3) =>
                 match parseExpPart cs3 with
                 | none => none
                 | some ((exNeg, ed), cs4) =>
                   some (Json.num (numValue false ip fd exNeg ed), cs4)) := by
        simp only [parseNum]
        rw [if_neg hneg]
      rw [heq] at h
      rw [heq2, show c :: (rest ++ ext) = (c :: rest) ++ ext from rfl]
      exact parseNum_tail_ext (c :: rest) false v r ext h hr

/-! ### The mutual parser extension -/

theorem parseVal_nil (f : Nat) : parseVal f [] = none := by
  cases f <;> rfl

theorem parseMembers_nil (f : Nat) (acc : List (String × Json)) :
    parseMembers f [] acc = none := by
  cases f <;> rfl

theorem parseElems_nil (f : Nat) (acc : List Json) : parseElems f [] acc = none := by
  cases f with
  | zero => rfl
  | succ g =>
    unfold parseElems
    rw [parseVal_nil]

theorem skipWs_append_cons (cs ext : List Char) (c : Char) (t : List Char)
    (h : skipWs cs = c :: t) : skipWs (cs ++ ext) = c :: (t ++ ext) := by
  unfold skipWs at h ⊢
  rw [dropWhile_append_of_ne cs ext (by rw [h]; simp), h, List.cons_append]

theorem ne_nil_of_skipWs_cons (r : List Char) (c : Char) (t : List Char)
    (h : skipWs r = c :: t) : r ≠ [] := by
  intro h0
  rw [h0] at h
  exact List.noConfusion h

theorem parseVal_succ_cons (f : Nat) (c : Char) (rest : List Char) :
    parseVal (f + 1) (c :: rest)
      = (if c = '{' then parseObj f rest
         else if c = '[' then parseArr f rest
         else if c = '"' then
           match parseStringBody f rest with
           | none => none
           | some (s, r) => some (Json.str (String.mk s), r)
         else if c = 't' then
           if ['r', 'u', 'e'].isPrefixOf rest then some (Json.bool true, rest.drop 3)
           else none
         else if c = 'f' then
           if ['a', 'l', 's', 'e'].isPrefixOf rest then some (Json.bool false, rest.drop 4)
           else none
         else if c = 'n' then
           if ['u', 'l', 'l'].isPrefixOf rest then some (Json.null, rest.drop 3)
           else none
         else if c = '-' ∨ c.isDigit then parseNum (c :: rest)
         else none) := rfl

theorem parser_ext (f : Nat) : ∀ (k : Nat),
    (∀ cs v r ext, parseVal f cs = some (v, r) → (r ≠ [] ∨ safePad ext) →
        parseVal (f + k) (cs ++ ext) = some (v, r ++ ext))
    ∧ (∀ cs v r ext, parseObj f cs = some (v, r) →
        parseObj (f + k) (cs ++ ext) = some (v, r ++ ext))
    ∧ (∀ cs acc v r ext, parseMembers f cs acc = some (v, r) →
        parseMembers (f + k) (cs ++ ext) acc = some (v, r ++ ext))
    ∧ (∀ cs v r ext, parseArr f cs = some (v, r) →
        parseArr (f + k) (cs ++ ext) = some (v, r ++ ext))
    ∧ (∀ cs acc v r ext, parseElems f cs acc = some (v, r) →
        parseElems (f + k) (cs ++ ext) acc = some (v, r ++ ext)) := by
  induction f with
  | zero =>
    intro k
    exact ⟨fun cs v r ext h _ => by simp [parseVal] at h,
           fun cs v r ext h => by simp [parseObj] at h,
           fun cs acc v r ext h => by simp [parseMembers] at h,
           fun cs v r ext h => by simp [parseArr] at h,
           fun cs acc v r ext h => by simp [parseElems] at h⟩
  | succ f ih =>
    intro k
    obtain ⟨ihV, ihO, ihM, ihA, ihE⟩ := ih k
    refine ⟨?_, ?_, ?_, ?_, ?_⟩
    · -- parseVal
      intro cs v r ext h hr
      cases cs with
      | nil => simp [parseVal] at h
      | cons c rest =>
        rw [Nat.add_right_comm f 1 k, List.cons_append]
        rw [parseVal_succ_cons] at h
        rw [parseVal_succ_cons]
        by_cases h1 : c = '{'
        · rw [if_pos h1] at h ⊢
          exact ihO rest v r ext h
        · rw [if_neg h1] at h ⊢
          by_cases h2 : c = '['
          · rw [if_pos h2] at h ⊢
            exact ihA rest v r ext h
          · rw [if_neg h2] at h ⊢
            by_cases h3 : c = '"'
            · rw [if_pos h3] at h ⊢
              cases hb : parseStringBody f rest with
              | none =>
                rw [hb] at h
                exact Option.noConfusion h
              | some pr =>
                obtain ⟨s2, r2⟩ := pr
                rw [hb] at h
                injection h with h0
                rw [Prod.mk.injEq] at h0
                simp only [parseStringBody_ext f k rest s2 r2 ext hb]
                rw [h0.1, h0.2]
            · rw [if_neg h3] at h ⊢
              by_cases h4 : c = 't'
              · rw [if_pos h4] at h ⊢
                by_cases hp : (['r', 'u', 'e'] : List Char).isPrefixOf rest = true
                · rw [if_pos hp] at h
                  rw [if_pos (isPrefixOf_append_ext _ rest ext hp)]
                  injection h with h0
                  rw [Prod.mk.injEq] at h0
                  have hdrop := drop_append_of_isPrefixOf ['r', 'u', 'e'] rest ext hp
                  rw [show (['r', 'u', 'e'] : List Char).length = 3 from rfl] at hdrop
                  rw [hdrop, h0.1, h0.2]
                · rw [if_neg hp] at h
                  exact Option.noConfusion h
              · rw [if_neg h4] at h ⊢
                by_cases h5 : c = 'f'
                · rw [if_pos h5] at h ⊢
                  by_cases hp : (['a', 'l', 's', 'e'] : List Char).isPrefixOf rest = true
                  · rw [if_pos hp] at h
                    rw [if_pos (isPrefixOf_append_ext _ rest ext hp)]
                    injection h with h0
                    rw [Prod.mk.injEq] at h0
                    have hdrop := drop_append_of_isPrefixOf ['a', 'l', 's', 'e'] rest ext hp
                    rw [show (['a', 'l', 's', 'e'] : List Char).length = 4 from rfl] at hdrop
                    rw [hdrop, h0.1, h0.2]
                  · rw [if_neg hp] at h
                    exact Option.noConfusion h
                · rw [if_neg h5] at h ⊢
                  by_cases h6 : c = 'n'
                  · rw [if_pos h6] at h ⊢
                    by_cases hp : (['u', 'l', 'l'] : List Char).isPrefixOf rest = true
                    · rw [if_pos hp] at h
                      rw [if_pos (isPrefixOf_append_ext _ rest ext hp)]
                      injection h with h0
                      rw [Prod.mk.injEq] at h0
                      have hdrop := drop_append_of_isPrefixOf ['u', 'l', 'l'] rest ext hp
                      rw [show (['u', 'l', 'l'] : List Char).length = 3 from rfl] at hdrop
                      rw [hdrop, h0.1, h0.2]
                    · rw [if_neg hp] at h
                      exact Option.noConfusion h
                  · rw [if_neg h6] at h ⊢
                    by_cases h7 : c = '-' ∨ c.isDigit
                    · rw [if_pos h7] at h ⊢
                      rw [show c :: (rest ++ ext) = (c :: rest) ++ ext from rfl]
                      exact parseNum_ext (c :: rest) v r ext h hr
                    · rw [if_neg h7] at h
                      exact Option.noConfusion h
    · -- parseObj
      intro cs v r ext h
      rw [Nat.add_right_comm f 1 k]
      unfold parseObj at h
      split at h
      next r1 heq =>
        injection h with h0
        rw [Prod.mk.injEq] at h0
        have hskx := skipWs_append_cons cs ext ('}') r1 heq
        unfold parseObj
        rw [hskx]
        show some (Json.obj [], r1 ++ ext) = some (v, r ++ ext)
        rw [h0.1, h0.2]
      next heq =>
        cases hsk0 : skipWs cs with
        | nil =>
          rw [hsk0, parseMembers_nil] at h
          exact Option.noConfusion h
        | cons c1 t1 =>
          have hc1 : ¬ c1 = '}' := fun he => heq t1 (by rw [hsk0, he])
          have hskx := skipWs_append_cons cs ext c1 t1 hsk0
          rw [hsk0] at h
          have hm := ihM (c1 :: t1) [] v r ext h
          unfold parseObj
          rw [hskx]
          split
          next r2 heq2 =>
            injection heq2 with he1 he2
            exact absurd he1 hc1
          next heq2 =>
            rw [← List.cons_append]
            exact hm
    · -- parseMembers
      intro cs acc v r ext h
      rw [Nat.add_right_comm f 1 k]
      unfold parseMembers at h
      split at h
      next rest =>
        cases hb : parseStringBody f rest with
        | none =>
          rw [hb] at h
          exact Option.noConfusion h
        | some pk =>
          obtain ⟨k1, r1⟩ := pk
          simp only [hb] at h
          split at h
          next r3 heq3 =>
            cases hv : parseVal f (skipWs r3) with
            | none =>
              rw [hv] at h
              exact Option.noConfusion h
            | some pv =>
              obtain ⟨v1, r4⟩ := pv
              simp only [hv] at h
              rw [List.cons_append]
              unfold parseMembers
              split
              next rest2 heqr =>
                injection heqr with he1 he2
                subst he2
                simp only [parseStringBody_ext f k rest k1 r1 ext hb]
                have hsk1 := skipWs_append_cons r1 ext (':') r3 heq3
                rw [hsk1]
                split
                next r3x heqx =>
                  injection heqx with he3 he4
                  subst he4
                  cases hsk3 : skipWs r3 with
                  | nil =>
                    rw [hsk3, parseVal_nil] at hv
                    exact Option.noConfusion hv
                  | cons d1 d2 =>
                    have hskx3 : skipWs (r3 ++ ext) = skipWs r3 ++ ext := by
                      unfold skipWs at hsk3 ⊢
                      rw [dropWhile_append_of_ne r3 ext (by rw [hsk3]; simp)]
                    rw [hskx3]
                    split at h
                    next r6 heq6 =>
                      have hr4 : r4 ≠ [] := ne_nil_of_skipWs_cons r4 (',') r6 heq6
                      have hvext := ihV (skipWs r3) v1 r4 ext hv (Or.inl hr4)
                      simp only [hvext]
                      have hsk4 := skipWs_append_cons r4 ext (',') r6 heq6
                      rw [hsk4]
                      split
                      next r6x heqx6 =>
                        injection heqx6 with he5 he6
                        subst he6
                        cases hsk6 : skipWs r6 with
                        | nil =>
                          rw [hsk6, parseMembers_nil] at h
                          exact Option.noConfusion h
                        | cons e1 e2 =>
                          have hskx6 : skipWs (r6 ++ ext) = skipWs r6 ++ ext := by
                            unfold skipWs at hsk6 ⊢
                            rw [dropWhile_append_of_ne r6 ext (by rw [hsk6]; simp)]
                          rw [hskx6]
                          exact ihM (skipWs r6) _ v r ext h
                      next r6x heqx6 =>
                        injection heqx6 with he5 he6
                        exact absurd he5 (by decide)
                      next hA hB =>
                        exact absurd (hA (r6 ++ ext) rfl) id
                    next r6 heq6 =>
                      injection h with h0
                      rw [Prod.mk.injEq] at h0
                      have hr4 : r4 ≠ [] := ne_nil_of_skipWs_cons r4 ('}') r6 heq6
                      have hvext := ihV (skipWs r3) v1 r4 ext hv (Or.inl hr4)
                      simp only [hvext]
                      have hsk4 := skipWs_append_cons r4 ext ('}') r6 heq6
                      rw [hsk4]
                      split
                      next r6x heqx6 =>
                        injection heqx6 with he5 he6
                        exact absurd he5 (by decide)
                      next r6x heqx6 =>
                        injection heqx6 with he5 he6
                        subst he6
                        rw [← h0.1, ← h0.2]
                      next hA hB =>
                        exact absurd (hB (r6 ++ ext) rfl) id
                    next hA hB =>
                      exact Option.noConfusion h
                next heqx =>
                  exact absurd (heqx (r3 ++ ext) rfl) id
              next heqr =>
                exact absurd (heqr (rest ++ ext) rfl) id
          next heq3 =>
            exact Option.noConfusion h
      next heq =>
        exact Option.noConfusion h
    · -- parseArr
      intro cs v r ext h
      rw [Nat.add_right_comm f 1 k]
      unfold parseArr at h
      split at h
      next r1 heq =>
        injection h with h0
        rw [Prod.mk.injEq] at h0
        have hskx := skipWs_append_cons cs ext (']') r1 heq
        unfold parseArr
        rw [hskx]
        show some (Json.arr [], r1 ++ ext) = some (v, r ++ ext)
        rw [h0.1, h0.2]
      next heq =>
        cases hsk0 : skipWs cs with
        | nil =>
          rw [hsk0, parseElems_nil] at h
          exact Option.noConfusion h
        | cons c1 t1 =>
          have hc1 : ¬ c1 = ']' := fun he => heq t1 (by rw [hsk0, he])
          have hskx := skipWs_append_cons cs ext c1 t1 hsk0
          rw [hsk0] at h
          have hm := ihE (c1 :: t1) [] v r ext h
          unfold parseArr
          rw [hskx]
          split
          next r2 heq2 =>
            injection heq2 with he1 he2
            exact absurd he1 hc1
          next heq2 =>
            rw [← List.cons_append]
            exact hm
    · -- parseElems
      intro cs acc v r ext h
      rw [Nat.add_right_comm f 1 k]
      unfold parseElems at h
      cases hv : parseVal f cs with
      | none =>
        rw [hv] at h
        exact Option.noConfusion h
      | some pv =>
        obtain ⟨v1, r1⟩ := pv
        simp only [hv] at h
        unfold parseElems
        split at h
        next r3 heq3 =>
          have hr1 : r1 ≠ [] := ne_nil_of_skipWs_cons r1 (',') r3 heq3
          have hvext := ihV cs v1 r1 ext hv (Or.inl hr1)
          simp only [hvext]
          have hsk1 := skipWs_append_cons r1 ext (',') r3 heq3
          rw [hsk1]
          split
          next r3x heqx =>
            injection heqx with he1 he2
            subst he2
            cases hsk3 : skipWs r3 with
            | nil =>
              rw [hsk3, parseElems_nil] at h
              exact Option.noConfusion h
            | cons d1 d2 =>
              have hskx3 : skipWs (r3 ++ ext) = skipWs r3 ++ ext := by
                unfold skipWs at hsk3 ⊢
                rw [dropWhile_append_of_ne r3 ext (by rw [hsk3]; simp)]
              rw [hskx3]
              exact ihE (skipWs r3) _ v r ext h
          next r3x heqx =>
            injection heqx with he1 he2
            exact absurd he1 (by decide)
          next hA hB =>
            exact absurd (hA (r3 ++ ext) rfl) id
        next r3 heq3 =>
          injection h with h0
          rw [Prod.mk.injEq] at h0
          have hr1 : r1 ≠ [] := ne_nil_of_skipWs_cons r1 (']') r3 heq3
          have hvext := ihV cs v1 r1 ext hv (Or.inl hr1)
          simp only [hvext]
          have hsk1 := skipWs_append_cons r1 ext (']') r3 heq3
          rw [hsk1]
          split
          next r3x heqx =>
            injection heqx with he1 he2
            exact absurd he1 (by decide)
          next r3x heqx =>
            injection heqx with he1 he2
            subst he2
            rw [← h0.1, ← h0.2]
          next hA hB =>
            exact absurd (hB (r3 ++ ext) rfl) id
        next hA hB =>
          exact Option.noConfusion h

/-! ### Whitespace and line-structure facts for the NDJSON claim -/

theorem jsonWsCode_jsWsCode (n : Nat) (h : isJsonWsCode n = true) : isJsWsCode n = true := by
  simp only [isJsonWsCode, Bool.or_eq_true, decide_eq_true_eq] at h
  rcases h with ((h | h) | h) | h <;> subst h <;> decide

theorem jsonWs_jsWs (c : Char) (h : isJsonWs c = true) : isJsWs c = true :=
  jsonWsCode_jsWsCode c.toNat h

theorem jsWs_not_jsonWs (c : Char) (h : isJsWs c = false) : isJsonWs c = false := by
  cases hj : isJsonWs c with
  | false => rfl
  | true => rw [jsonWs_jsWs c hj] at h; exact Bool.noConfusion h

theorem jsWs_not_numCont (c : Char) (h1 : isJsWs c = true) : isNumCont c = false := by
  have hn : c.toNat ∈ jsWsCodes := by simpa [isJsWs, isJsWsCode] using h1
  have hc : c = Char.ofNat c.toNat := (Char.ofNat_toNat c).symm
  rw [hc]
  simp only [jsWsCodes, List.mem_cons, List.not_mem_nil, or_false] at hn
  rcases hn with h | h | h | h | h | h | h | h | h | h | h | h | h |
    h | h | h | h | h | h | h | h | h | h | h | h <;> rw [h] <;> decide

theorem splitOnNl_ne_nil (cs : List Char) : splitOnNl cs ≠ [] := by
  cases cs with
  | nil => simp [splitOnNl]
  | cons c rest =>
    unfold splitOnNl
    by_cases hc : c = '\n'
    · rw [if_pos hc]
      simp
    · rw [if_neg hc]
      split <;> simp

theorem joinNl_splitOnNl (cs : List Char) : joinNl (splitOnNl cs) = cs := by
  induction cs with
  | nil => rfl
  | cons c rest ih =>
    unfold splitOnNl
    by_cases hc : c = '\n'
    · rw [if_pos hc]
      cases hrest : splitOnNl rest with
      | nil => exact absurd hrest (splitOnNl_ne_nil rest)
      | cons l ls =>
        rw [show joinNl ([] :: l :: ls) = [] ++ ('\n') :: joinNl (l :: ls) from rfl]
        rw [hrest] at ih
        rw [List.nil_append, ih, hc]
    · rw [if_neg hc]
      cases hrest : splitOnNl rest with
      | nil => exact absurd hrest (splitOnNl_ne_nil rest)
      | cons l ls =>
        rw [hrest] at ih
        cases ls with
        | nil =>
          rw [show joinNl [c :: l] = c :: l from rfl]
          rw [show joinNl [l] = l from rfl] at ih
          rw [ih]
        | cons l2 ls2 =>
          rw [show joinNl ((c :: l) :: l2 :: ls2)
              = (c :: l) ++ ('\n') :: joinNl (l2 :: ls2) from rfl]
          rw [show joinNl (l :: l2 :: ls2) = l ++ ('\n') :: joinNl (l2 :: ls2) from rfl] at ih
          rw [List.cons_append, ih]

theorem jsTrimList_length_le (cs : List Char) : (jsTrimList cs).length ≤ cs.length := by
  unfold jsTrimList
  calc (((cs.dropWhile isJsWs).reverse.dropWhile isJsWs).reverse).length
      = ((cs.dropWhile isJsWs).reverse.dropWhile isJsWs).length := List.length_reverse _
    _ ≤ ((cs.dropWhile isJsWs).reverse).length := (List.dropWhile_sublist _).length_le
    _ = (cs.dropWhile isJsWs).length := List.length_reverse _
    _ ≤ cs.length := (List.dropWhile_sublist _).length_le

theorem jsTrim_decomp (cs : List Char) :
    cs = cs.takeWhile isJsWs ++ jsTrimList cs
      ++ ((cs.dropWhile isJsWs).reverse.takeWhile isJsWs).reverse := by
  unfold jsTrimList
  conv_lhs => rw [← List.takeWhile_append_dropWhile (p := isJsWs) (l := cs)]
  rw [List.append_assoc]
  congr 1
  conv_lhs => rw [← List.reverse_reverse (cs.dropWhile isJsWs)]
  conv_lhs =>
    rw [← List.takeWhile_append_dropWhile (p := isJsWs) (l := (cs.dropWhile isJsWs).reverse)]
  rw [List.reverse_append]

theorem takeWhile_ws_ws (cs : List Char) : ∀ c ∈ cs.takeWhile isJsWs, isJsWs c = true :=
  fun _ hc => List.mem_takeWhile_imp hc

theorem trim_suffix_ws (cs : List Char) :
    ∀ c ∈ ((cs.dropWhile isJsWs).reverse.takeWhile isJsWs).reverse, isJsWs c = true := by
  intro c hc
  rw [List.mem_reverse] at hc
  exact List.mem_takeWhile_imp hc

theorem jsTrimList_nil_all (l : List Char) (h : jsTrimList l = []) :
    ∀ c ∈ l, isJsWs c = true := by
  intro c hc
  have hd := jsTrim_decomp l
  rw [h, List.append_nil] at hd
  rw [hd] at hc
  rcases List.mem_append.mp hc with hm | hm
  · exact takeWhile_ws_ws l c hm
  · exact trim_suffix_ws l c hm

theorem mem_of_getLastOpt {α : Type} : ∀ (l : List α) (c : α), l.getLast? = some c → c ∈ l
  | [], c, h => by simp at h
  | [a], c, h => by
    simp only [List.getLast?_singleton, Option.some.injEq] at h
    simp [h]
  | a :: b :: t, c, h => by
    rw [List.getLast?_cons_cons] at h
    exact List.mem_cons_of_mem a (mem_of_getLastOpt (b :: t) c h)

theorem jsTrim_clean_last (cs : List Char) (c : Char)
    (h : (jsTrimList cs).getLast? = some c) : isJsWs c = false := by
  unfold jsTrimList at h
  rw [List.getLast?_reverse] at h
  exact dropWhile_head?_false _ c h

theorem parse_some_inv (s : String) (j : Json) (h : Json.parse s = some j) :
    ∃ rem, parseVal (2 * s.data.length + 2) (skipWs s.data) = some (j, rem)
      ∧ skipWs rem = [] := by
  unfold Json.parse at h
  split at h
  next v rem heq =>
    split at h
    next hrem =>
      refine ⟨rem, ?_, hrem⟩
      rw [heq]
      injection h with h0
      rw [h0]
    next hrem => exact Option.noConfusion h
  next heq => exact Option.noConfusion h

theorem lineItemContent_parse (l : String) (hne : jsTrim l ≠ "")
    (h : (lineItemContent l).isSome = true) : ∃ j, Json.parse (jsTrim l) = some j := by
  simp only [lineItemContent] at h
  rw [if_neg hne] at h
  cases hp : Json.parse (jsTrim l) with
  | none =>
    rw [hp] at h
    simp at h
  | some j => exact ⟨j, rfl⟩

theorem dropWhile_cons_false {p : Char → Bool} (c : Char) (t : List Char) (hc : p c = false) :
    (c :: t).dropWhile p = c :: t := by
  rw [List.dropWhile_cons, if_neg (by simp [hc])]

theorem ndjson_parse_raw_none (raw : String)
    (h1 : (splitLinesJs (jsTrim raw)).length > 1)
    (h2 : ∀ l ∈ splitLinesJs (jsTrim raw), (lineItemContent l).isSome = true) :
    Json.parse raw = none := by
  have hlines : splitLinesJs (jsTrim raw) = (splitOnNl (jsTrimList raw.data)).map String.mk :=
    rfl
  cases hpieces : splitOnNl (jsTrimList raw.data) with
  | nil => exact absurd hpieces (splitOnNl_ne_nil _)
  | cons p1 prest =>
    cases prest with
    | nil =>
      rw [hlines, hpieces] at h1
      simp at h1
    | cons p2 ps =>
      have hjoin : jsTrimList raw.data = p1 ++ ('\n') :: joinNl (p2 :: ps) := by
        have h := joinNl_splitOnNl (jsTrimList raw.data)
        rw [hpieces] at h
        rw [show joinNl (p1 :: p2 :: ps) = p1 ++ ('\n') :: joinNl (p2 :: ps) from rfl] at h
        exact h.symm
      have hp1ne : p1 ≠ [] := by
        intro h0
        subst h0
        have hhead : (jsTrimList raw.data).head? = some ('\n') := by
          rw [hjoin]
          rfl
        have := jsTrim_clean_head raw.data ('\n') hhead
        exact absurd this (by decide)
      obtain ⟨c0, p1t, hp1⟩ : ∃ c0 p1t, p1 = c0 :: p1t := by
        cases hcp : p1 with
        | nil => exact absurd hcp hp1ne
        | cons a b => exact ⟨a, b, rfl⟩
      have hc0 : isJsWs c0 = false := by
        apply jsTrim_clean_head raw.data c0
        rw [hjoin, hp1]
        rfl
      have htkp1 : p1.takeWhile isJsWs = [] := by
        rw [hp1, List.takeWhile_cons, if_neg (by simp [hc0])]
      have hp1decomp : p1 = jsTrimList p1
          ++ ((p1.dropWhile isJsWs).reverse.takeWhile isJsWs).reverse := by
        have h := jsTrim_decomp p1
        rw [htkp1, List.nil_append] at h
        exact h
      have hT1ws : ∀ c ∈ ((p1.dropWhile isJsWs).reverse.takeWhile isJsWs).reverse,
          isJsWs c = true := trim_suffix_ws p1
      have hL1ne : jsTrimList p1 ≠ [] := by
        intro h0
        have := jsTrimList_nil_all p1 h0 c0 (by rw [hp1]; simp)
        rw [hc0] at this
        exact Bool.noConfusion this
      have hmem1 : String.mk p1 ∈ splitLinesJs (jsTrim raw) := by
        rw [hlines, hpieces]
        exact List.mem_map_of_mem _ (by simp)
      have htl1 : jsTrim (String.mk p1) ≠ "" := by
        intro h0
        exact hL1ne (congrArg String.data h0)
      obtain ⟨j1, hparse1⟩ := lineItemContent_parse (String.mk p1) htl1 (h2 _ hmem1)
      obtain ⟨rem, hval1, hremws⟩ := parse_some_inv _ j1 hparse1
      rw [show (jsTrim (String.mk p1)).data = jsTrimList p1 from rfl] at hval1
      obtain ⟨l1h, l1t, hL1⟩ : ∃ a t, jsTrimList p1 = a :: t := by
        cases hL : jsTrimList p1 with
        | nil => exact absurd hL hL1ne
        | cons a t => exact ⟨a, t, rfl⟩
      have hl1h : isJsWs l1h = false := jsTrim_clean_head p1 l1h (by rw [hL1]; rfl)
      have hskL1 : skipWs (jsTrimList p1) = jsTrimList p1 := by
        rw [hL1]
        unfold skipWs
        exact dropWhile_cons_false l1h l1t (jsWs_not_jsonWs l1h hl1h)
      rw [hskL1] at hval1
      have hdecomp := jsTrim_decomp raw.data
      by_cases hPjson : ∀ c ∈ raw.data.takeWhile isJsWs, isJsonWs c = true
      · -- every leading whitespace char is also JSON whitespace: the scanner
        -- reaches the trimmed text, parses the first line, and then rejects
        -- the input because the later lines are left over
        have hskraw : skipWs raw.data
            = jsTrimList raw.data
              ++ ((raw.data.dropWhile isJsWs).reverse.takeWhile isJsWs).reverse := by
          conv_lhs => rw [hdecomp]
          unfold skipWs
          rw [List.append_assoc, dropWhile_append_all _ _ hPjson]
          have hshape : jsTrimList raw.data
              ++ ((raw.data.dropWhile isJsWs).reverse.takeWhile isJsWs).reverse
              = c0 :: (p1t ++ (('\n') :: joinNl (p2 :: ps))
                  ++ ((raw.data.dropWhile isJsWs).reverse.takeWhile isJsWs).reverse) := by
            rw [hjoin, hp1]
            simp [List.cons_append, List.append_assoc]
          rw [hshape, dropWhile_cons_false c0 _ (jsWs_not_jsonWs c0 hc0), ← hshape]
        have hsplit : jsTrimList raw.data
            ++ ((raw.data.dropWhile isJsWs).reverse.takeWhile isJsWs).reverse
            = jsTrimList p1
              ++ (((p1.dropWhile isJsWs).reverse.takeWhile isJsWs).reverse
                  ++ ('\n') :: (joinNl (p2 :: ps)
                      ++ ((raw.data.dropWhile isJsWs).reverse.takeWhile isJsWs).reverse)) := by
          rw [hjoin]
          conv_lhs => rw [hp1decomp]
          simp [List.cons_append, List.append_assoc]
        have hlen : 2 * (jsTrimList p1).length + 2 ≤ 2 * raw.data.length + 2 := by
          have h1l : (jsTrimList p1).length ≤ p1.length := jsTrimList_length_le p1
          have h2l : p1.length ≤ (jsTrimList raw.data).length := by
            rw [hjoin]
            simp
          have h3l : (jsTrimList raw.data).length ≤ raw.data.length :=
            jsTrimList_length_le _
          omega
        have hcond : rem ≠ []
            ∨ safePad (((p1.dropWhile isJsWs).reverse.takeWhile isJsWs).reverse
                ++ ('\n') :: (joinNl (p2 :: ps)
                    ++ ((raw.data.dropWhile isJsWs).reverse.takeWhile isJsWs).reverse)) := by
          by_cases hrem : rem = []
          · right
            intro c hc
            cases hT : ((p1.dropWhile isJsWs).reverse.takeWhile isJsWs).reverse with
            | nil =>
              rw [hT, List.nil_append] at hc
              simp only [List.head?_cons, Option.some.injEq] at hc
              subst hc
              decide
            | cons t0 ts =>
              rw [hT] at hc
              simp only [List.cons_append, List.head?_cons, Option.some.injEq] at hc
              subst hc
              exact jsWs_not_numCont t0 (hT1ws t0 (by rw [hT]; simp))
          · exact Or.inl hrem
        have hk := (parser_ext (2 * (jsTrimList p1).length + 2)
            (2 * raw.data.length + 2 - (2 * (jsTrimList p1).length + 2))).1
            (jsTrimList p1) j1 rem _ hval1 hcond
        rw [show 2 * (jsTrimList p1).length + 2
            + (2 * raw.data.length + 2 - (2 * (jsTrimList p1).length + 2))
            = 2 * raw.data.length + 2 from by omega] at hk
        have hne : ¬ (skipWs (rem
            ++ (((p1.dropWhile isJsWs).reverse.takeWhile isJsWs).reverse
                ++ ('\n') :: (joinNl (p2 :: ps)
                    ++ ((raw.data.dropWhile isJsWs).reverse.takeWhile isJsWs).reverse)))
            = []) := by
          have hskre : skipWs (rem
              ++ (((p1.dropWhile isJsWs).reverse.takeWhile isJsWs).reverse
                  ++ ('\n') :: (joinNl (p2 :: ps)
                      ++ ((raw.data.dropWhile isJsWs).reverse.takeWhile isJsWs).reverse)))
              = skipWs (((p1.dropWhile isJsWs).reverse.takeWhile isJsWs).reverse
                  ++ ('\n') :: (joinNl (p2 :: ps)
                      ++ ((raw.data.dropWhile isJsWs).reverse.takeWhile isJsWs).reverse)) := by
            unfold skipWs at hremws ⊢
            exact dropWhile_append_all rem _ (List.dropWhile_eq_nil_iff.mp hremws)
          rw [hskre]
          intro h0
          unfold skipWs at h0
          have hall := List.dropWhile_eq_nil_iff.mp h0
          cases hR2 : joinNl (p2 :: ps) with
          | nil =>
            have hlastnl : (jsTrimList raw.data).getLast? = some ('\n') := by
              rw [hjoin, hR2]
              rw [List.getLast?_append_of_ne_nil _ (by simp)]
              rfl
            have := jsTrim_clean_last raw.data ('\n') hlastnl
            exact absurd this (by decide)
          | cons q qs =>
            have hcstar : (q :: qs).getLast? = some ((q :: qs).getLast (by simp)) :=
              List.getLast?_eq_getLast _ _
            have hlast : (jsTrimList raw.data).getLast?
                = some ((q :: qs).getLast (by simp)) := by
              rw [hjoin, hR2, List.getLast?_append_of_ne_nil _ (by simp),
                List.getLast?_cons_cons]
              exact hcstar
            have hcstarws : isJsWs ((q :: qs).getLast (by simp)) = false :=
              jsTrim_clean_last raw.data _ hlast
            have hcstarmem : (q :: qs).getLast (by simp)
                ∈ ((p1.dropWhile isJsWs).reverse.takeWhile isJsWs).reverse
                  ++ ('\n') :: (joinNl (p2 :: ps)
                      ++ ((raw.data.dropWhile isJsWs).reverse.takeWhile isJsWs).reverse) := by
              have h1m : (q :: qs).getLast (by simp) ∈ joinNl (p2 :: ps) := by
                rw [hR2]
                exact mem_of_getLastOpt _ _ hcstar
              exact List.mem_append.mpr (Or.inr (List.mem_cons_of_mem _
                (List.mem_append.mpr (Or.inl h1m))))
            have hws := hall _ hcstarmem
            rw [jsWs_not_jsonWs _ hcstarws] at hws
            exact Bool.noConfusion hws
        unfold Json.parse
        rw [hskraw, hsplit, hk]
        show (if skipWs (rem
            ++ (((p1.dropWhile isJsWs).reverse.takeWhile isJsWs).reverse
                ++ ('\n') :: (joinNl (p2 :: ps)
                    ++ ((raw.data.dropWhile isJsWs).reverse.takeWhile isJsWs).reverse)))
            = [] then some j1 else none) = none
        rw [if_neg hne]
      · -- some leading whitespace char is JavaScript-only whitespace: the
        -- JSON scanner stops on it and no value can start there
        cases hd : (raw.data.takeWhile isJsWs).dropWhile isJsonWs with
        | nil =>
          exfalso
          apply hPjson
          intro c hc
          exact List.dropWhile_eq_nil_iff.mp hd c hc
        | cons cbad t2 =>
          have hbadmem : cbad ∈ raw.data.takeWhile isJsWs := by
            obtain ⟨pre, hpre⟩ :=
              List.dropWhile_suffix (l := raw.data.takeWhile isJsWs) isJsonWs
            rw [← hpre, hd]
            simp
          have hbadws : isJsWs cbad = true := takeWhile_ws_ws raw.data cbad hbadmem
          have hbadjson : isJsonWs cbad = false :=
            dropWhile_head?_false _ cbad (by rw [hd]; rfl)
          have hskraw : skipWs raw.data
              = cbad :: (t2 ++ (jsTrimList raw.data
                  ++ ((raw.data.dropWhile isJsWs).reverse.takeWhile isJsWs).reverse)) := by
            conv_lhs => rw [hdecomp]
            unfold skipWs
            rw [List.append_assoc,
              dropWhile_append_of_ne _ _ (by rw [hd]; simp), hd, List.cons_append]
          unfold Json.parse
          rw [hskraw,
            parseVal_none_of_not_start _ cbad _ (wsChar_not_start cbad hbadws hbadjson)]

/-! ### The NDJSON accumulator -/

theorem stringJoin_cons (s : String) (l : List String) :
    String.join (s :: l) = s ++ String.join l := by
  rw [String.join_eq, String.join_eq]
  rfl

theorem joinLineContents_cons (l : String) (rest : List String) :
    joinLineContents (l :: rest)
      = (lineItemContent l).getD ("") ++ joinLineContents rest := by
  unfold joinLineContents
  rw [List.map_cons, stringJoin_cons]

theorem ndjsonStep_item (acc l : String) (h : (lineItemContent l).isSome = true) :
    ndjsonStep acc l = acc ++ (lineItemContent l).getD ("") := by
  simp only [ndjsonStep, lineItemContent] at h ⊢
  by_cases hb : jsTrim l = ""
  · rw [if_pos hb] at h
    rw [if_pos hb, if_pos hb, Option.getD_some, String.append_empty]
  · rw [if_neg hb] at h
    rw [if_neg hb, if_neg hb]
    cases hp : Json.parse (jsTrim l) with
    | none =>
      rw [hp] at h
      simp at h
    | some j =>
      simp only [hp] at h ⊢
      split at h
      next c heq1 heq2 =>
        rw [Option.getD_some]
      next hne =>
        simp at h

theorem ndjson_fold : ∀ (lines : List String) (acc : String),
    (∀ l ∈ lines, (lineItemContent l).isSome = true) →
    lines.foldl ndjsonStep acc = acc ++ joinLineContents lines
  | [], acc, _ => by
    rw [List.foldl_nil, show joinLineContents [] = ("") from rfl, String.append_empty]
  | l :: rest, acc, h => by
    rw [List.foldl_cons, ndjsonStep_item acc l (h l (by simp)),
      ndjson_fold rest _ (fun x hx => h x (List.mem_cons_of_mem l hx)),
      joinLineContents_cons, String.append_assoc]

/-! ### Claim C5 -/

/-- Claim C5, counterexample: two newline-separated lines, each parsing as an
object of shape `type = "item"` with a string `content`, whose contents are
both empty.  The claim says the resolver returns the concatenation of the
contents, the empty string; instead the NDJSON pass accumulates nothing and
the resolver falls through to the raw body text, returning the whole two-line
input. -/
theorem c5_counterexample :
    (splitLinesJs (jsTrim
        ("\x7b\"type\":\"item\",\"content\":\"\"\x7d\n\x7b\"type\":\"item\",\"content\":\"\"\x7d"))).length
      > 1
    ∧ (∀ l ∈ splitLinesJs (jsTrim
        ("\x7b\"type\":\"item\",\"content\":\"\"\x7d\n\x7b\"type\":\"item\",\"content\":\"\"\x7d")),
        (lineItemContent l).isSome = true)
    ∧ joinLineContents (splitLinesJs (jsTrim
        ("\x7b\"type\":\"item\",\"content\":\"\"\x7d\n\x7b\"type\":\"item\",\"content\":\"\"\x7d")))
      = ("")
    ∧ parseN8nResponse
        ("\x7b\"type\":\"item\",\"content\":\"\"\x7d\n\x7b\"type\":\"item\",\"content\":\"\"\x7d")
      = ("\x7b\"type\":\"item\",\"content\":\"\"\x7d\n\x7b\"type\":\"item\",\"content\":\"\"\x7d")
    ∧ ("\x7b\"type\":\"item\",\"content\":\"\"\x7d\n\x7b\"type\":\"item\",\"content\":\"\"\x7d")
      ≠ ("") := by
  refine ⟨by decide, by decide, by decide, by decide, by decide⟩

/-- Claim C5, amended: for every response body whose trimmed text splits into
more than one line, where every line either is blank or parses as a JSON
object of shape `type = "item"` with a string `content`, and where the
concatenation of those contents in line order is non-empty, the resolver
returns that concatenation: the whole-document JSON parse necessarily fails
on the multi-line input, and the NDJSON pass accumulates the contents; in
particular the lines with contents `"a"` then `"b"` resolve to `"ab"`. -/
theorem c5_amended (raw : String)
    (h1 : (splitLinesJs (jsTrim raw)).length > 1)
    (h2 : ∀ l ∈ splitLinesJs (jsTrim raw), (lineItemContent l).isSome = true)
    (h3 : joinLineContents (splitLinesJs (jsTrim raw)) ≠ "") :
    parseN8nResponse raw = joinLineContents (splitLinesJs (jsTrim raw)) := by
  have hparse := ndjson_parse_raw_none raw h1 h2
  have hraw : raw ≠ "" := by
    intro h0
    subst h0
    rw [show splitLinesJs (jsTrim ("")) = [("")] from rfl] at h1
    simp at h1
  have hwhole : resolverWholeJson raw = "" := by
    unfold resolverWholeJson
    split
    · simp only [hparse]
    · rfl
  have hafter : resolverAfterNdjson raw = joinLineContents (splitLinesJs (jsTrim raw)) := by
    simp only [resolverAfterNdjson]
    rw [hwhole, if_pos ⟨rfl, hraw⟩, if_pos h1, ndjson_fold _ _ h2, String.empty_append]
  unfold parseN8nResponse
  rw [hafter, if_neg (fun hand => h3 hand.1)]

/-- Claim C5, witness: the two lines of the claim's example resolve to
`"ab"`. -/
theorem c5_witness :
    parseN8nResponse
        ("\x7b\"type\":\"item\",\"content\":\"a\"\x7d\n\x7b\"type\":\"item\",\"content\":\"b\"\x7d")
      = ("ab") :=
  (c5_amended
      ("\x7b\"type\":\"item\",\"content\":\"a\"\x7d\n\x7b\"type\":\"item\",\"content\":\"b\"\x7d")
      (by decide) (by decide) (by decide)).trans (by decide)

end Concierge
